import Mathlib

/-!
# Verification of the opencode-toolbox search core

A shallow embedding of the tool-discovery search core: the BM25 tokenizer and
ranked index (incremental variant, `src/search/bm25.ts`), the bounded regex
matcher (`src/search/regex.ts`) and the catalog-entry normalizer
(`src/mcp-client/remote.ts`), together with theorems settling the specified
behavioral claims.

Modelling conventions:
* JavaScript `Map`s are association lists (`AList`); `Map.set` updates the
  first matching key in place or appends, `Map.delete` removes the entry —
  faithful to JS insertion-order semantics.
* JavaScript floating-point numbers are idealized as elements of a linear
  ordered field `K`; the index and search pipeline are generic in `K` and in
  the logarithm function `lg` (the source's `Math.log`), and claims about the
  concrete program instantiate `K := ℝ`, `lg := Real.log`.
* `Array.prototype.sort` (stable) is modelled by a stable insertion sort
  driven by the source's comparator.
* String comparison `localeCompare` is idealized as lexicographic order on
  characters; `String.prototype.includes` and `startsWith` are modelled
  literally on character lists.
-/

set_option linter.unusedSectionVars false

namespace Toolbox

/-! ## Association lists (JS `Map` model) -/

/-- Association list with string keys: the model of a JavaScript `Map`. -/
abbrev AList (α : Type) := List (String × α)

/-- `m.get(k)`: first value bound to `k`. -/
def lookupA {α : Type} : AList α → String → Option α
  | [], _ => none
  | (k', v) :: rest, k => if k' = k then some v else lookupA rest k

/-- `m.set(k, v)`: replace the binding of `k` in place, or append it. -/
def setA {α : Type} : AList α → String → α → AList α
  | [], k, v => [(k, v)]
  | (k', v') :: rest, k, v =>
    if k' = k then (k, v) :: rest else (k', v') :: setA rest k v

/-- `m.delete(k)`: remove the binding of `k` (first occurrence). -/
def eraseA {α : Type} : AList α → String → AList α
  | [], _ => []
  | (k', v') :: rest, k => if k' = k then rest else (k', v') :: eraseA rest k

/-- `m.has(k)`. -/
def hasA {α : Type} (m : AList α) (k : String) : Bool :=
  (lookupA m k).isSome

/-- Keys of an association list. -/
def keysA {α : Type} (m : AList α) : List String := m.map Prod.fst

/-! ## Tokenizer (`tokenize` in `bm25.ts`)

`text.toLowerCase().replace(/[^\w\s]/g, " ").split(/\s+/).filter(t => t.length > 0)`.
The regex class `\w` is `[A-Za-z0-9_]` and `\s` is whitespace; `toLowerCase`
is modelled per character (it only affects characters that survive the
replacement, all of which are ASCII word characters). -/

/-- The `\w` character class of the source's replacement regex. -/
def isWordChar (c : Char) : Bool := c.isAlphanum || c = '_'

/-- Whitespace, the `\s` class (ASCII fragment; non-ASCII whitespace behaves
identically through the pipeline since replaced characters become spaces). -/
def isWs (c : Char) : Bool := c = ' ' || c = '\t' || c = '\n' || c = '\r'

/-- Split a character list on runs of whitespace, dropping empty pieces:
the composition of `split(/\s+/)` and `filter(t => t.length > 0)`. -/
def splitTokens : List Char → List Char → List (List Char)
  | [], acc => if acc.isEmpty then [] else [acc.reverse]
  | c :: rest, acc =>
    if isWs c then
      if acc.isEmpty then splitTokens rest []
      else acc.reverse :: splitTokens rest []
    else splitTokens rest (c :: acc)

/-- `tokenize(text)` from the source. -/
def tokenize (text : String) : List String :=
  let lowered := text.data.map Char.toLower
  let replaced := lowered.map fun c => if isWordChar c || isWs c then c else ' '
  (splitTokens replaced []).map String.mk

/-! ## Catalog data model (`catalog/types.ts`) -/

/-- `ToolId`: `{ server, name }`. -/
structure ToolId where
  server : String
  name : String
deriving Repr, DecidableEq

/-- One entry of a tool's `args` array: `{ name, description? }`. -/
structure ToolArg where
  name : String
  description : Option String
deriving Repr, DecidableEq

/-- `CatalogTool` (the `inputSchema` field is opaque to the search core and
is carried by the normalizer model separately). -/
structure CatalogTool where
  id : ToolId
  idString : String
  description : String
  searchableText : String
  args : List ToolArg
deriving Repr, DecidableEq

/-- `SearchResult` over score type `K`. -/
structure SearchResult (K : Type) where
  tool : ToolId
  idString : String
  score : K
  preview : String
  signature : String
deriving Repr

/-! ## String helpers (`includes`, `startsWith`, `toLowerCase`) -/

/-- `sub` begins `hay` (character-list prefix test). -/
def isPrefixL : List Char → List Char → Bool
  | [], _ => true
  | _ :: _, [] => false
  | a :: as, b :: bs => a = b && isPrefixL as bs

/-- `hay` contains `sub` somewhere (JS `String.prototype.includes`). -/
def containsL : List Char → List Char → Bool
  | [], sub => sub.isEmpty
  | h :: t, sub => isPrefixL sub (h :: t) || containsL t sub

/-- `s.includes(sub)`. -/
def strIncludes (s sub : String) : Bool := containsL s.data sub.data

/-- `s.toLowerCase()` (per-character; ASCII-faithful). -/
def strToLower (s : String) : String := String.mk (s.data.map Char.toLower)

/-- Case-insensitive substring containment, as the specification words it:
"its description, compared case-insensitively, contains the substring". -/
def containsCI (s sub : String) : Bool :=
  strIncludes (strToLower s) (strToLower sub)

/-! ## Stable sort (model of `Array.prototype.sort`)

The source's sorts go through `Array.prototype.sort(comparator)`, which is
stable. We model it by a stable insertion sort parameterized by the boolean
relation `le a b` meaning `comparator(a, b) <= 0`. -/

/-- Insert `x` after every element `y` of the (already processed) list with
`le y x`; stable for elements the comparator ties. -/
def insertCmp {α : Type} (le : α → α → Bool) (x : α) : List α → List α
  | [] => [x]
  | y :: ys => if le y x then y :: insertCmp le x ys else x :: y :: ys

/-- Stable insertion sort with comparator `le` (`comparator(a,b) <= 0`). -/
def sortCmp {α : Type} (le : α → α → Bool) (l : List α) : List α :=
  l.foldl (fun acc x => insertCmp le x acc) []

/-! ## First-occurrence deduplication (JS `new Set(tokens)` iteration order) -/

def dedupFirstAux (seen : List String) : List String → List String
  | [] => []
  | t :: ts => if t ∈ seen then dedupFirstAux seen ts else t :: dedupFirstAux (t :: seen) ts

/-- The distinct tokens of a list in first-occurrence order: `new Set(tokens)`
iterated in insertion order. -/
def dedupFirst (l : List String) : List String := dedupFirstAux [] l

/-! ## Result formatter

`BM25Index.toSearchResult` (BM25 mode; note the CASE-SENSITIVE `includes`)
and `generateSignature` (regex mode; lowercases the description first). -/

/-- The `"?"`/`""` suffix computed by `toSearchResult`:
`arg.description?.includes("optional") || arg.description?.includes("(optional)")`. -/
def argOptionalMark (arg : ToolArg) : String :=
  if ((arg.description.map fun d => strIncludes d "optional").getD false
      || (arg.description.map fun d => strIncludes d "(optional)").getD false)
  then "?" else ""

/-- `BM25Index.toSearchResult(tool, score)`. -/
def toSearchResult {K : Type} (tool : CatalogTool) (score : K) : SearchResult K :=
  let argList := String.intercalate ", "
    (tool.args.map fun arg => arg.name ++ argOptionalMark arg)
  { tool := tool.id
    idString := tool.idString
    score := score
    preview := tool.description
    signature := tool.id.name ++ "(" ++ argList ++ ")" }

/-- `generateSignature(tool)` from the regex module: the description is
lowercased (`arg.description?.toLowerCase() || ""`) before the check. -/
def generateSignature (tool : CatalogTool) : String :=
  let argList := String.intercalate ", "
    (tool.args.map fun arg =>
      let desc := strToLower (arg.description.getD "")
      let opt := strIncludes desc "optional" || strIncludes desc "(optional)"
      arg.name ++ (if opt then "?" else ""))
  tool.id.name ++ "(" ++ argList ++ ")"

/-! ## BM25 ranked index (`BM25Index`, incremental variant)

State and operations, generic over the idealized number type `K` and the
logarithm `lg` (the source's `Math.log`). -/

/-- A document record: `{ tokens, tool }`. -/
structure DocRec where
  tokens : List String
  tool : CatalogTool
deriving Repr, DecidableEq

/-- The mutable state of a `BM25Index`. -/
structure BM25State (K : Type) where
  documents : AList DocRec
  docFreqs : AList Nat
  docLengths : AList Nat
  avgDocLength : K
  totalDocs : Nat
  totalTokens : Nat

variable {K : Type} [LinearOrderedField K]

/-- The BM25 parameter `k1 = 1.2`. -/
def bm25K1 : K := 6 / 5

/-- The BM25 parameter `b = 0.75`. -/
def bm25B : K := 3 / 4

/-- A freshly constructed (or cleared) index. -/
def emptyIndex : BM25State K :=
  { documents := [], docFreqs := [], docLengths := [],
    avgDocLength := 0, totalDocs := 0, totalTokens := 0 }

/-- `this.docFreqs.set(token, (this.docFreqs.get(token) || 0) + 1)`. -/
def incrFreq (m : AList Nat) (t : String) : AList Nat :=
  setA m t ((lookupA m t).getD 0 + 1)

/-- The removal update: `if (freq <= 1) delete else set(freq - 1)`. -/
def decrFreq (m : AList Nat) (t : String) : AList Nat :=
  let freq := (lookupA m t).getD 0
  if freq ≤ 1 then eraseA m t else setA m t (freq - 1)

/-- `BM25Index.addToolInternal(tool)`: skip when already indexed, otherwise
store the document, its length, bump the totals and the per-unique-term
document frequencies. -/
def addToolInternal (st : BM25State K) (tool : CatalogTool) : BM25State K :=
  if hasA st.documents tool.idString then st
  else
    let tokens := tokenize tool.searchableText
    { st with
      documents := setA st.documents tool.idString ⟨tokens, tool⟩
      docLengths := setA st.docLengths tool.idString tokens.length
      totalTokens := st.totalTokens + tokens.length
      totalDocs := st.totalDocs + 1
      docFreqs := (dedupFirst tokens).foldl incrFreq st.docFreqs }

/-- `recalculateAvgDocLength` / `recalculateAvgDocLengthIncremental` (both
compute `totalTokens / totalDocs`, or `0` when the index is empty). -/
def recalcAvg (st : BM25State K) : BM25State K :=
  if st.totalDocs = 0 then { st with avgDocLength := 0 }
  else { st with avgDocLength := (st.totalTokens : K) / (st.totalDocs : K) }

/-- `BM25Index.addTool(tool)`. -/
def addTool (st : BM25State K) (tool : CatalogTool) : BM25State K :=
  recalcAvg (addToolInternal st tool)

/-- `BM25Index.addToolsBatch(tools)`. -/
def addToolsBatch (st : BM25State K) (tools : List CatalogTool) : BM25State K :=
  recalcAvg (tools.foldl addToolInternal st)

/-- The chunk loop of `addToolsAsync`: processes `chunkSize`-sized slices and
counts the `yieldToEventLoop()` calls (performed only when a further chunk
remains). The source's loop does not terminate for `chunkSize = 0`; the model
is defined there (processing everything at once) but every theorem about the
chunked path assumes `1 ≤ chunkSize`. -/
def chunkLoop (cs : Nat) (st : BM25State K) (tools : List CatalogTool) :
    BM25State K × Nat :=
  if h : cs = 0 ∨ tools.length ≤ cs then
    (tools.foldl addToolInternal st, 0)
  else
    let rest := chunkLoop cs ((tools.take cs).foldl addToolInternal st) (tools.drop cs)
    (rest.1, rest.2 + 1)
termination_by tools.length
decreasing_by
  push_neg at h
  simp only [List.length_drop]
  omega

/-- `BM25Index.addToolsAsync(tools, chunkSize)`: final state together with
the number of event-loop yields. -/
def addToolsAsync (st : BM25State K) (tools : List CatalogTool) (cs : Nat) :
    BM25State K × Nat :=
  let r := chunkLoop cs st tools
  (recalcAvg r.1, r.2)

/-- `BM25Index.indexTools(tools)`: `clear()` then `addToolsBatch(tools)`. -/
def indexTools (tools : List CatalogTool) : BM25State K :=
  addToolsBatch emptyIndex tools

/-- `BM25Index.indexToolsAsync(tools, chunkSize)`: `clear()` then the chunked
add; returns the final state and the yield count. -/
def indexToolsAsync (tools : List CatalogTool) (cs : Nat) : BM25State K × Nat :=
  addToolsAsync emptyIndex tools cs

/-- `BM25Index.removeTool(idString)`: the new state and the returned boolean. -/
def removeTool (st : BM25State K) (idStr : String) : BM25State K × Bool :=
  match lookupA st.documents idStr with
  | none => (st, false)
  | some doc =>
    let st' : BM25State K :=
      { documents := eraseA st.documents idStr
        docFreqs := (dedupFirst doc.tokens).foldl decrFreq st.docFreqs
        docLengths := eraseA st.docLengths idStr
        avgDocLength := st.avgDocLength
        totalDocs := st.totalDocs - 1
        totalTokens := st.totalTokens - doc.tokens.length }
    (recalcAvg st', true)

/-! ## Scoring and search -/

/-- `tf`: `doc.tokens.filter(t => t === token).length`. -/
def tfOf (docTokens : List String) (token : String) : Nat :=
  (docTokens.filter fun t => t = token).length

/-- `idf = Math.log((totalDocs - df + 0.5) / (df + 0.5) + 1)`. -/
def idfOf (lg : K → K) (totalDocs df : Nat) : K :=
  lg (((totalDocs : K) - (df : K) + 1 / 2) / ((df : K) + 1 / 2) + 1)

/-- The contribution of one query token to one document's score (the loop
body of `search`; a token with zero document frequency is skipped). -/
def tokenScore (lg : K → K) (st : BM25State K) (docTokens : List String)
    (docLength : Nat) (token : String) : K :=
  let df := (lookupA st.docFreqs token).getD 0
  if df = 0 then 0
  else
    let idf := idfOf lg st.totalDocs df
    let tf := tfOf docTokens token
    let numerator := (tf : K) * (bm25K1 + 1)
    let denominator := (tf : K) +
      bm25K1 * (1 - bm25B + bm25B * ((docLength : K) / st.avgDocLength))
    idf * (numerator / denominator)

/-- The accumulated BM25 score of one document against the query tokens.
The document length is read back from `docLengths` (the source asserts its
presence with `!`; an absent entry is modelled as length 0). -/
def docScore (lg : K → K) (st : BM25State K) (queryTokens : List String)
    (idStr : String) (docTokens : List String) : K :=
  let docLength := (lookupA st.docLengths idStr).getD 0
  queryTokens.foldl (fun s token => s + tokenScore lg st docTokens docLength token) 0

/-- The `scores` map built by `search`: one entry per document whose summed
score is strictly positive, in document-iteration order. -/
def scoresList (lg : K → K) (st : BM25State K) (queryTokens : List String) : AList K :=
  st.documents.foldl
    (fun acc p =>
      let s := docScore lg st queryTokens p.1 p.2.tokens
      if 0 < s then setA acc p.1 s else acc)
    []

/-- The result comparator of `search` as a `cmp a b ≤ 0` relation: scores
within `0.0001` of each other count as tied and fall back to ascending
`idString`; otherwise higher scores come first. -/
def resLe (a b : String × K) : Bool :=
  if |a.2 - b.2| < 1 / 10000 then decide (a.1 ≤ b.1) else decide (b.2 < a.2)

/-- The comparator relation on finished results (the specified ordering:
descending by score except that score differences below `0.0001` are ties
broken by ascending `idString`). -/
def resultRel (a b : SearchResult K) : Prop :=
  if |a.score - b.score| < 1 / 10000 then a.idString ≤ b.idString else b.score < a.score

/-- `BM25Index.search(query, limit)`. The unreachable `none` branch models
the source's non-null assertion `this.documents.get(idString)!`. -/
def search (lg : K → K) (st : BM25State K) (query : String) (limit : Nat) :
    List (SearchResult K) :=
  let queryTokens := tokenize query
  if queryTokens.isEmpty || st.totalDocs = 0 then []
  else
    let scores := scoresList lg st queryTokens
    let sorted := (sortCmp resLe scores).take limit
    sorted.map fun p =>
      match lookupA st.documents p.1 with
      | some doc => toSearchResult doc.tool p.2
      | none => toSearchResult ⟨⟨"", ""⟩, "", "", "", []⟩ p.2

/-- `search` with the `limit` parameter omitted: the source's declaration is
`search(query: string, limit: number = 5)`, so the internal default is 5. -/
def searchDefault (lg : K → K) (st : BM25State K) (query : String) :
    List (SearchResult K) :=
  search lg st query 5

/-! ## Bounded regex matcher (`searchWithRegex`)

The host regex engine is abstracted as a compile function from
(pattern, flags) to either an error message or a matcher predicate; the
surrounding control flow (length guard, `(?i)` stripping, filtering,
ordering, truncation, result shaping) is modelled from the source. -/

/-- `MAX_REGEX_LENGTH = 200`. -/
def MAX_REGEX_LENGTH : Nat := 200

/-- The error codes of `RegexSearchError`. -/
inductive RegexErrCode where
  | invalid_pattern
  | pattern_too_long
  | unavailable
deriving Repr, DecidableEq

/-- `RegexSearchError = { code, message }`. -/
structure RegexSearchError where
  code : RegexErrCode
  message : String
deriving Repr, DecidableEq

/-- An abstract host regex engine: `compile pattern flags` yields either a
compilation error message or the matcher `s => regex.test(s)`. -/
structure RegexEngine where
  compile : String → String → Except String (String → Bool)

/-- The pattern actually compiled: a leading literal `(?i)` is stripped. -/
def strippedPattern (pattern : String) : String :=
  if pattern.startsWith "(?i)" then pattern.drop 4 else pattern

/-- The flags passed to the engine: `"i"` exactly when the `(?i)` marker led. -/
def regexFlags (pattern : String) : String :=
  if pattern.startsWith "(?i)" then "i" else ""

/-- `searchWithRegex(tools, pattern, limit)`. -/
def searchWithRegex (eng : RegexEngine) (tools : List CatalogTool)
    (pattern : String) (limit : Nat) :
    Except RegexSearchError (List (SearchResult K)) :=
  if MAX_REGEX_LENGTH < pattern.length then
    .error { code := .pattern_too_long
             message := "Pattern exceeds maximum length of 200 characters" }
  else
    match eng.compile (strippedPattern pattern) (regexFlags pattern) with
    | .error msg => .error { code := .invalid_pattern, message := msg }
    | .ok test =>
      let results := tools.foldl
        (fun acc tool =>
          if test tool.searchableText then acc ++ [(tool, (1 : K))] else acc) []
      let sorted := (sortCmp (fun a b => decide (a.1.idString ≤ b.1.idString)) results).take limit
      .ok (sorted.map fun p =>
        { tool := p.1.id
          idString := p.1.idString
          score := p.2
          preview := p.1.description
          signature := generateSignature p.1 })

/-! ## Catalog entry normalizer (`normalizeTool` in `mcp-client/remote.ts`)

Raw tool descriptors carry a JSON-Schema-like `inputSchema`, modelled by a
small JSON value type. `String(x)` is the JavaScript string coercion. -/

/-- JSON-like values for raw parameter schemas. -/
inductive JsonVal where
  | str (s : String)
  | num (n : Int)
  | bool (b : Bool)
  | null
  | obj (fields : List (String × JsonVal))
  | arr (elems : List JsonVal)
deriving Repr

mutual

/-- JavaScript `String(x)` on the modelled values. An array stringifies via
`Array.prototype.toString = join(",")`: elements comma-joined, a `null`
element rendering as the empty string (`String([]) = ""`,
`String(["a","b"]) = "a,b"`). -/
def jsToString : JsonVal → String
  | .str s => s
  | .num n => toString n
  | .bool b => if b then "true" else "false"
  | .null => "null"
  | .obj _ => "[object Object]"
  | .arr es => String.intercalate "," (jsArrParts es)

/-- The per-element strings of `Array.prototype.join(",")`: each element via
`String(...)`, except a `null` element which joins as the empty string. -/
def jsArrParts : List JsonVal → List String
  | [] => []
  | .null :: rest => "" :: jsArrParts rest
  | v :: rest => jsToString v :: jsArrParts rest

end

/-- `Object.entries(x)` behind the `typeof x === "object" && x !== null`
guard: defined for objects (their field list) and for arrays (index-keyed
entries `("0", v0), ("1", v1), …`), undefined for every other value. -/
def jsEntries : JsonVal → Option (List (String × JsonVal))
  | .obj fields => some fields
  | .arr es => some (es.enum.map fun p => (toString p.1, p.2))
  | _ => none

/-- Key lookup in a JSON object (`"k" in o` / `o.k`). -/
def jsonGet (fields : List (String × JsonVal)) (k : String) : Option JsonVal :=
  lookupA fields k

/-- A raw MCP tool descriptor as consumed by `normalizeTool`. -/
structure RawTool where
  name : String
  description : Option String
  inputSchema : JsonVal
deriving Repr

/-- `extractArgs(schema)`: walk `Object.entries(schema.properties)` when the
schema is an object-typed node whose `properties` passes
`typeof x === "object" && x !== null` — so an object OR an array (an array
yields index-named entries); a `description` key of a property is coerced
with `String(...)` whatever its type. -/
def extractArgs (schema : JsonVal) : List ToolArg :=
  match schema with
  | .obj fields =>
    match jsonGet fields "type", jsonGet fields "properties" with
    | some (.str "object"), some props =>
      match jsEntries props with
      | some entries =>
        entries.map fun p =>
          { name := p.1
            description :=
              match p.2 with
              | .obj pf =>
                match jsonGet pf "description" with
                | some d => some (jsToString d)
                | none => none
              | _ => none }
      | none => []
    | _, _ => []
  | _ => []

/-- `buildSearchableText(serverName, tool, args)`: space-joined parts in
fixed order; the description and each argument description are included only
when truthy (present and non-empty). -/
def buildSearchableText (serverName : String) (tool : RawTool)
    (args : List ToolArg) : String :=
  let parts : List String :=
    [serverName ++ "_" ++ tool.name, tool.name]
    ++ (match tool.description with
        | some d => if d = "" then [] else [d]
        | none => [])
    ++ args.foldr (fun arg acc =>
        arg.name ::
          (match arg.description with
           | some d => if d = "" then acc else d :: acc
           | none => acc)) []
  String.intercalate " " parts

/-- `normalizeTool(serverName, tool)` (the opaque `inputSchema` passthrough
is kept on the raw descriptor). -/
def normalizeTool (serverName : String) (tool : RawTool) : CatalogTool :=
  let args := extractArgs tool.inputSchema
  { id := { server := serverName, name := tool.name }
    idString := serverName ++ "_" ++ tool.name
    description := tool.description.getD ""
    searchableText := buildSearchableText serverName tool args
    args := args }

/-! ## Specification-side definitions

Written from the claims' wording, to be compared against the source-derived
definitions above. -/

/-- The claim's argument extraction: a property's `description` is included
"only if present and of string type" (the source instead coerces any present
value with `String(...)`). -/
def specExtractArgsClaim (schema : JsonVal) : List ToolArg :=
  match schema with
  | .obj fields =>
    match jsonGet fields "type", jsonGet fields "properties" with
    | some (.str "object"), some (.obj props) =>
      props.map fun p =>
        { name := p.1
          description :=
            match p.2 with
            | .obj pf =>
              match jsonGet pf "description" with
              | some (.str d) => some d
              | _ => none
            | _ => none }
    | _, _ => []
  | _ => []

/-- The claim's searchable text: idString, local name, description (omitted
if empty or absent), then each argument's name followed by its description,
the argument description "omitted if absent" (but, per the claim, not when
merely empty). -/
def specSearchableTextClaim (idString localName : String) (desc : Option String)
    (args : List ToolArg) : String :=
  let parts : List String :=
    [idString, localName]
    ++ (match desc with
        | some d => if d = "" then [] else [d]
        | none => [])
    ++ (args.map fun a =>
        [a.name] ++ (match a.description with
                     | some d => [d]
                     | none => [])).flatten
  String.intercalate " " parts

/-- The schema shape gate of `extractArgs`: the walked entry list, available
for an object-typed schema whose `properties` value is an object (its field
list) or an array (index-named entries, as `Object.entries` yields). -/
def schemaProps (schema : JsonVal) : Option (List (String × JsonVal)) :=
  match schema with
  | .obj fields =>
    match jsonGet fields "type", jsonGet fields "properties" with
    | some (.str "object"), some props => jsEntries props
    | _, _ => none
  | _ => none

/-- The per-property argument record as the source actually builds it
(description coerced to string whenever the property is an object carrying a
`description` key). -/
def argOfProp (p : String × JsonVal) : ToolArg :=
  { name := p.1
    description :=
      match p.2 with
      | .obj pf => (jsonGet pf "description").map jsToString
      | _ => none }

/-- The searchable text as the source builds it (argument descriptions
dropped when absent or empty; stated over an argument list). -/
def specSearchableTextAmended (idString localName : String) (desc : Option String)
    (args : List ToolArg) : String :=
  let parts : List String :=
    [idString, localName]
    ++ (match desc with
        | some d => if d = "" then [] else [d]
        | none => [])
    ++ (args.map fun a =>
        [a.name] ++ (match a.description with
                     | some d => if d = "" then [] else [d]
                     | none => [])).flatten
  String.intercalate " " parts

/-! ## Operation sequences (for the term-statistics invariant) -/

/-- The public mutating operations of the ranked index. -/
inductive IndexOp where
  | index (tools : List CatalogTool)
  | indexAsync (tools : List CatalogTool) (cs : Nat)
  | add (tool : CatalogTool)
  | addBatch (tools : List CatalogTool)
  | addAsync (tools : List CatalogTool) (cs : Nat)
  | remove (idStr : String)

/-- Apply one public operation to the index state. -/
def applyOp (st : BM25State K) : IndexOp → BM25State K
  | .index tools => indexTools tools
  | .indexAsync tools cs => (indexToolsAsync tools cs).1
  | .add tool => addTool st tool
  | .addBatch tools => addToolsBatch st tools
  | .addAsync tools cs => (addToolsAsync st tools cs).1
  | .remove idStr => (removeTool st idStr).1

/-- Apply a sequence of public operations, starting from a fresh index. -/
def applyOps (st : BM25State K) (ops : List IndexOp) : BM25State K :=
  ops.foldl applyOp st

/-- The number of currently indexed documents whose token set contains `t`. -/
def dfCountDocs (docs : AList DocRec) (t : String) : Nat :=
  (docs.filter fun p => decide (t ∈ p.2.tokens)).length

/-- The term-statistics invariant: document keys are unique, term keys are
unique, and every term's stored count is exactly the number of indexed
documents containing it (entries with count zero do not exist). -/
def TermStatsInv (st : BM25State K) : Prop :=
  (keysA st.documents).Nodup ∧ (keysA st.docFreqs).Nodup ∧
  ∀ t, lookupA st.docFreqs t =
    (if dfCountDocs st.documents t = 0 then none else some (dfCountDocs st.documents t))

/-! ## Concrete instances used by witnesses and counterexamples -/

/-- A minimal catalog tool whose searchable text is the single token
`alpha`. -/
def simpleTool (idStr : String) : CatalogTool :=
  { id := { server := "s", name := idStr }
    idString := idStr
    description := ""
    searchableText := "alpha"
    args := [] }

/-- A tool with an argument whose description contains "Optional" with a
capital letter. -/
def optTool : CatalogTool :=
  { id := { server := "s", name := "t" }
    idString := "s_t"
    description := "d"
    searchableText := "alpha"
    args := [{ name := "x", description := some "Optional" }] }

/-- A consistent one-document index over ℝ holding `optTool` (exactly the
state `addTool` produces from the empty index). -/
def optState : BM25State ℝ :=
  { documents := [("s_t", ⟨["alpha"], optTool⟩)]
    docFreqs := [("alpha", 1)]
    docLengths := [("s_t", 1)]
    avgDocLength := 1
    totalDocs := 1
    totalTokens := 1 }

/-- A consistent six-document index over ℝ, every document the single token
`alpha` (exactly the state batch-indexing six `simpleTool`s produces). -/
def st6 : BM25State ℝ :=
  { documents :=
      [("t1", ⟨["alpha"], simpleTool "t1"⟩), ("t2", ⟨["alpha"], simpleTool "t2"⟩),
       ("t3", ⟨["alpha"], simpleTool "t3"⟩), ("t4", ⟨["alpha"], simpleTool "t4"⟩),
       ("t5", ⟨["alpha"], simpleTool "t5"⟩), ("t6", ⟨["alpha"], simpleTool "t6"⟩)]
    docFreqs := [("alpha", 6)]
    docLengths := [("t1", 1), ("t2", 1), ("t3", 1), ("t4", 1), ("t5", 1), ("t6", 1)]
    avgDocLength := 1
    totalDocs := 6
    totalTokens := 6 }

/-- The `send_email` example tool of the specification. -/
def sendEmailTool : CatalogTool :=
  { id := { server := "gmail", name := "send_email" }
    idString := "gmail_send_email"
    description := "Send an email"
    searchableText := "gmail_send_email send_email Send an email to subject body"
    args :=
      [{ name := "to", description := some "Recipient email address" }
       , { name := "subject", description := some "Email subject" }
       , { name := "body", description := some "Email body, optional" }] }

/-- An engine whose compilation always fails with message `bad`. -/
def engReject : RegexEngine := ⟨fun _ _ => .error "bad"⟩

/-- An engine whose every compiled pattern matches every string (the host
behavior for the empty pattern). -/
def engAccept : RegexEngine := ⟨fun _ _ => .ok fun _ => true⟩

/-- A 201-character pattern. -/
def pat201 : String := String.mk (List.replicate 201 'a')

/-- A 200-character pattern. -/
def pat200 : String := String.mk (List.replicate 200 'a')

/-- A consistent one-document index over ℚ (the state of batch-indexing
`simpleTool "a"`), used to witness the add/remove inverse. -/
def stW : BM25State ℚ :=
  { documents := [("a", ⟨["alpha"], simpleTool "a"⟩)]
    docFreqs := [("alpha", 1)]
    docLengths := [("a", 1)]
    avgDocLength := 1
    totalDocs := 1
    totalTokens := 1 }

/-- A raw descriptor whose parameter schema has a numeric `description` on
property `x` and an empty-string description on property `y`. -/
def cexRawTool : RawTool :=
  { name := "t"
    description := some "d"
    inputSchema :=
      .obj [("type", .str "object"),
            ("properties", .obj
              [("x", .obj [("description", .num 42)]),
               ("y", .obj [("description", .str "")])])] }

/-! ## Basic lemmas about the `Map` model -/

@[simp] theorem lookupA_nil {α : Type} (k : String) : lookupA ([] : AList α) k = none := rfl

@[simp] theorem lookupA_cons {α : Type} (k' k : String) (v : α) (rest : AList α) :
    lookupA ((k', v) :: rest) k = if k' = k then some v else lookupA rest k := rfl

@[simp] theorem setA_nil {α : Type} (k : String) (v : α) : setA ([] : AList α) k v = [(k, v)] := rfl

@[simp] theorem setA_cons {α : Type} (k' k : String) (v' v : α) (rest : AList α) :
    setA ((k', v') :: rest) k v =
      if k' = k then (k, v) :: rest else (k', v') :: setA rest k v := rfl

@[simp] theorem eraseA_nil {α : Type} (k : String) : eraseA ([] : AList α) k = [] := rfl

@[simp] theorem eraseA_cons {α : Type} (k' k : String) (v' : α) (rest : AList α) :
    eraseA ((k', v') :: rest) k =
      if k' = k then rest else (k', v') :: eraseA rest k := rfl

theorem lookupA_eq_none_iff {α : Type} (m : AList α) (k : String) :
    lookupA m k = none ↔ k ∉ keysA m := by
  induction m with
  | nil => simp [keysA]
  | cons p rest ih =>
    obtain ⟨k', v⟩ := p
    by_cases h : k' = k
    · subst h; simp [keysA]
    · have h' : k ≠ k' := fun hh => h hh.symm
      simp [keysA, h, h', ih]

/-- Setting an absent key appends the binding at the end. -/
theorem setA_absent {α : Type} (m : AList α) (k : String) (v : α)
    (h : lookupA m k = none) : setA m k v = m ++ [(k, v)] := by
  induction m with
  | nil => rfl
  | cons p rest ih =>
    obtain ⟨k', v'⟩ := p
    by_cases hk : k' = k
    · simp [hk] at h
    · simp [hk] at h ⊢; exact ih h

/-- Erasing an absent key is the identity. -/
theorem eraseA_absent {α : Type} (m : AList α) (k : String)
    (h : lookupA m k = none) : eraseA m k = m := by
  induction m with
  | nil => rfl
  | cons p rest ih =>
    obtain ⟨k', v'⟩ := p
    by_cases hk : k' = k
    · simp [hk] at h
    · simp [hk] at h ⊢; exact ih h

/-- Erasing a key just appended to a map that lacked it restores the map. -/
theorem eraseA_append_single {α : Type} (m : AList α) (k : String) (v : α)
    (h : lookupA m k = none) : eraseA (m ++ [(k, v)]) k = m := by
  induction m with
  | nil => simp [eraseA]
  | cons p rest ih =>
    obtain ⟨k', v'⟩ := p
    by_cases hk : k' = k
    · simp [hk] at h
    · simp [hk] at h ⊢; exact ih h

theorem lookupA_append_single {α : Type} (m : AList α) (k : String) (v : α)
    (h : lookupA m k = none) : lookupA (m ++ [(k, v)]) k = some v := by
  induction m with
  | nil => simp
  | cons p rest ih =>
    obtain ⟨k', v'⟩ := p
    by_cases hk : k' = k
    · simp [hk] at h
    · simp [hk] at h ⊢; exact ih h

theorem lookupA_setA_self {α : Type} (m : AList α) (k : String) (v : α) :
    lookupA (setA m k v) k = some v := by
  induction m with
  | nil => simp [setA]
  | cons p rest ih =>
    obtain ⟨k', v'⟩ := p
    by_cases hk : k' = k <;> simp [hk, ih]

theorem lookupA_setA_other {α : Type} (m : AList α) (k k₂ : String) (v : α)
    (h : k ≠ k₂) : lookupA (setA m k v) k₂ = lookupA m k₂ := by
  induction m with
  | nil => simp [setA, h]
  | cons p rest ih =>
    obtain ⟨k', v'⟩ := p
    by_cases hk : k' = k
    · subst hk; simp [h]
    · simp [hk, ih]

theorem lookupA_eraseA_other {α : Type} (m : AList α) (k k₂ : String)
    (h : k ≠ k₂) : lookupA (eraseA m k) k₂ = lookupA m k₂ := by
  induction m with
  | nil => simp
  | cons p rest ih =>
    obtain ⟨k', v'⟩ := p
    by_cases hk : k' = k
    · subst hk; simp [h]
    · by_cases hk2 : k' = k₂
      · subst hk2; simp [hk]
      · simp [hk, hk2, ih]

/-- Setting the value a key already has is the identity. -/
theorem setA_lookup_self {α : Type} (m : AList α) (k : String) (v : α)
    (h : lookupA m k = some v) : setA m k v = m := by
  induction m with
  | nil => simp at h
  | cons p rest ih =>
    obtain ⟨k', v'⟩ := p
    by_cases hk : k' = k
    · subst hk; simp at h ⊢; simp [h]
    · simp [hk] at h ⊢; exact ih h

/-- Overwriting twice keeps the later value. -/
theorem setA_setA_self {α : Type} (m : AList α) (k : String) (v₁ v₂ : α) :
    setA (setA m k v₁) k v₂ = setA m k v₂ := by
  induction m with
  | nil => simp [setA]
  | cons p rest ih =>
    obtain ⟨k', v'⟩ := p
    by_cases hk : k' = k <;> simp [hk, ih]

/-- Erasing one key commutes with setting another. -/
theorem eraseA_setA_comm {α : Type} (m : AList α) (k₁ k₂ : String) (v : α)
    (h : k₁ ≠ k₂) : eraseA (setA m k₁ v) k₂ = setA (eraseA m k₂) k₁ v := by
  have hne : ¬ k₁ = k₂ := h
  have hne2 : ¬ k₂ = k₁ := fun hh => h hh.symm
  induction m with
  | nil => simp [hne]
  | cons p rest ih =>
    obtain ⟨k', v'⟩ := p
    by_cases h1 : k' = k₁
    · subst h1; simp [hne]
    · by_cases h2 : k' = k₂
      · subst h2; simp [h1, hne2]
      · simp [h1, h2, ih]

/-- Setting two different keys commutes when the second is already bound. -/
theorem setA_setA_comm_present {α : Type} (m : AList α) (k₁ k₂ : String)
    (v₁ v₂ x : α) (h : k₁ ≠ k₂) (hp : lookupA m k₂ = some x) :
    setA (setA m k₁ v₁) k₂ v₂ = setA (setA m k₂ v₂) k₁ v₁ := by
  have hne : ¬ k₁ = k₂ := h
  have hne2 : ¬ k₂ = k₁ := fun hh => h hh.symm
  induction m with
  | nil => simp at hp
  | cons p rest ih =>
    obtain ⟨k', v'⟩ := p
    by_cases h1 : k' = k₁
    · subst h1; simp [hne]
    · by_cases h2 : k' = k₂
      · subst h2; simp [h1, hne2]
      · simp [h1, h2] at hp ⊢
        exact ih hp

/-- A member of `setA m k v` is the new binding or an old member. -/
theorem mem_setA {α : Type} (m : AList α) (k : String) (v : α) (p : String × α)
    (h : p ∈ setA m k v) : p = (k, v) ∨ p ∈ m := by
  induction m with
  | nil => simpa [setA] using h
  | cons q rest ih =>
    obtain ⟨k', v'⟩ := q
    by_cases hk : k' = k
    · subst hk
      simp at h
      rcases h with h | h
      · left; simp [h]
      · right; simp [h]
    · simp [hk] at h
      rcases h with h | h
      · right; simp [h]
      · rcases ih h with h' | h'
        · left; exact h'
        · right; simp [h']

/-- A key of `setA m k v` is `k` or a key of `m`. -/
theorem keysA_setA_mem {α : Type} (m : AList α) (k : String) (v : α) (x : String)
    (h : x ∈ keysA (setA m k v)) : x = k ∨ x ∈ keysA m := by
  simp only [keysA, List.mem_map] at h
  obtain ⟨p, hp, hx⟩ := h
  rcases mem_setA m k v p hp with h' | h'
  · left; rw [h'] at hx; exact hx ▸ rfl
  · right; exact List.mem_map.mpr ⟨p, h', hx⟩

/-- `setA` preserves distinctness of keys. -/
theorem keysA_setA_nodup {α : Type} (m : AList α) (k : String) (v : α)
    (h : (keysA m).Nodup) : (keysA (setA m k v)).Nodup := by
  induction m with
  | nil => simp [keysA]
  | cons p rest ih =>
    obtain ⟨k', v'⟩ := p
    simp only [keysA, List.map_cons, List.nodup_cons] at h
    by_cases hk : k' = k
    · subst hk
      simpa [keysA, List.nodup_cons] using h
    · simp only [setA_cons, if_neg hk, keysA, List.map_cons, List.nodup_cons]
      refine ⟨fun hc => ?_, ih h.2⟩
      rcases keysA_setA_mem rest k v k' hc with h' | h'
      · exact hk h'
      · exact h.1 h'

/-! ## Lemmas about the stable sort -/

@[simp] theorem insertCmp_nil {α : Type} (le : α → α → Bool) (x : α) :
    insertCmp le x [] = [x] := rfl

@[simp] theorem insertCmp_cons {α : Type} (le : α → α → Bool) (x y : α) (ys : List α) :
    insertCmp le x (y :: ys) =
      if le y x then y :: insertCmp le x ys else x :: y :: ys := rfl

theorem length_insertCmp {α : Type} (le : α → α → Bool) (x : α) (l : List α) :
    (insertCmp le x l).length = l.length + 1 := by
  induction l with
  | nil => rfl
  | cons y ys ih =>
    by_cases h : le y x <;> simp [h, ih]

theorem mem_insertCmp {α : Type} (le : α → α → Bool) (x a : α) (l : List α) :
    a ∈ insertCmp le x l ↔ a = x ∨ a ∈ l := by
  induction l with
  | nil => simp
  | cons y ys ih =>
    by_cases h : le y x
    · simp [h, ih]; try tauto
    · simp [h]; try tauto

theorem length_sortCmp {α : Type} (le : α → α → Bool) (l : List α) :
    (sortCmp le l).length = l.length := by
  suffices h : ∀ (l : List α) (acc : List α),
      (l.foldl (fun acc x => insertCmp le x acc) acc).length = l.length + acc.length by
    simpa using h l []
  intro l
  induction l with
  | nil => simp
  | cons x xs ih =>
    intro acc
    simp [List.foldl_cons, ih, length_insertCmp]
    omega

theorem mem_sortCmp {α : Type} (le : α → α → Bool) (a : α) (l : List α) :
    a ∈ sortCmp le l ↔ a ∈ l := by
  suffices h : ∀ (l : List α) (acc : List α),
      (a ∈ l.foldl (fun acc x => insertCmp le x acc) acc ↔ a ∈ l ∨ a ∈ acc) by
    simpa using h l []
  intro l
  induction l with
  | nil => simp
  | cons x xs ih =>
    intro acc
    simp [List.foldl_cons, ih, mem_insertCmp]
    tauto

/-- The head of an insertion is either the inserted element or the old head. -/
theorem head_insertCmp {α : Type} (le : α → α → Bool) (x : α) :
    ∀ l : List α, (insertCmp le x l).head? = some x ∨ (insertCmp le x l).head? = l.head?
  | [] => Or.inl rfl
  | y :: ys => by by_cases h : le y x <;> simp [h]

/-- With a total comparator, inserting preserves adjacent sortedness. -/
theorem chain_insertCmp {α : Type} (le : α → α → Bool)
    (htot : ∀ a b, le a b = true ∨ le b a = true) (x : α) (l : List α)
    (h : l.Chain' (fun a b => le a b = true)) :
    (insertCmp le x l).Chain' (fun a b => le a b = true) := by
  induction l with
  | nil => simp
  | cons y ys ih =>
    simp only [insertCmp_cons]
    by_cases hle : le y x
    · rw [if_pos hle]
      rw [List.chain'_cons'] at h ⊢
      refine ⟨?_, ih h.2⟩
      intro b hb
      rcases head_insertCmp le x ys with hh | hh
      · rw [hh] at hb; simp at hb; subst hb; exact hle
      · rw [hh] at hb; exact h.1 b hb
    · rw [if_neg hle]
      exact List.chain'_cons.mpr ⟨(htot x y).resolve_right (by simpa using hle), h⟩

/-- Adjacent sortedness is preserved by `take`. -/
theorem chain_take {α : Type} (R : α → α → Prop) :
    ∀ (l : List α) (n : Nat), l.Chain' R → (l.take n).Chain' R := by
  intro l
  induction l with
  | nil => intro n _; simp
  | cons x xs ih =>
    intro n h
    cases n with
    | zero => simp
    | succ m =>
      rw [List.take_succ_cons]
      rw [List.chain'_cons'] at h ⊢
      refine ⟨?_, ih m h.2⟩
      intro y hy
      apply h.1
      cases xs with
      | nil => simp at hy
      | cons z zs =>
        cases m with
        | zero => simp at hy
        | succ k =>
          simp only [List.take_succ_cons, List.head?_cons] at hy ⊢
          exact hy

/-- With a total comparator, the sort output is adjacent-sorted. -/
theorem chain_sortCmp {α : Type} (le : α → α → Bool)
    (htot : ∀ a b, le a b = true ∨ le b a = true) (l : List α) :
    (sortCmp le l).Chain' (fun a b => le a b = true) := by
  suffices h : ∀ (l : List α) (acc : List α),
      acc.Chain' (fun a b => le a b = true) →
      (l.foldl (fun acc x => insertCmp le x acc) acc).Chain' (fun a b => le a b = true) by
    exact h l [] (by simp)
  intro l
  induction l with
  | nil => intro acc h; simpa using h
  | cons x xs ih =>
    intro acc h
    exact ih _ (chain_insertCmp le htot x acc h)

/-! ## Lemmas about deduplication -/

theorem mem_dedupFirstAux (seen l : List String) (x : String) :
    x ∈ dedupFirstAux seen l ↔ x ∈ l ∧ x ∉ seen := by
  induction l generalizing seen with
  | nil => simp [dedupFirstAux]
  | cons t ts ih =>
    by_cases h : t ∈ seen
    · simp only [dedupFirstAux, if_pos h, ih, List.mem_cons]
      constructor
      · tauto
      · rintro ⟨hx | hx, hs⟩
        · subst hx; exact absurd h hs
        · exact ⟨hx, hs⟩
    · simp only [dedupFirstAux, if_neg h, List.mem_cons, ih]
      by_cases hx : x = t
      · subst hx; simp [h]
      · simp [hx]; try tauto

theorem mem_dedupFirst (l : List String) (x : String) :
    x ∈ dedupFirst l ↔ x ∈ l := by
  simp [dedupFirst, mem_dedupFirstAux]

theorem nodup_dedupFirstAux (seen l : List String) : (dedupFirstAux seen l).Nodup := by
  induction l generalizing seen with
  | nil => simp [dedupFirstAux]
  | cons t ts ih =>
    by_cases h : t ∈ seen
    · simpa [dedupFirstAux, if_pos h] using ih seen
    · simp only [dedupFirstAux, if_neg h, List.nodup_cons]
      exact ⟨fun hc => by simp [mem_dedupFirstAux] at hc, ih (t :: seen)⟩

theorem nodup_dedupFirst (l : List String) : (dedupFirst l).Nodup :=
  nodup_dedupFirstAux [] l

/-! ## Character-level lemmas (for the tokenizer claim) -/

theorem toNat_ofNat_valid (n : Nat) (h : n.isValidChar) : (Char.ofNat n).toNat = n := by
  simp only [Char.ofNat]
  rw [dif_pos h]
  simp [Char.ofNatAux, Char.toNat, UInt32.toNat, BitVec.toNat_ofNatLt]

theorem isUpper_iff (c : Char) : c.isUpper = true ↔ 65 ≤ c.toNat ∧ c.toNat ≤ 90 := by
  simp [Char.isUpper, UInt32.le_def, BitVec.le_def, Char.toNat, UInt32.toNat]

/-- `toLower` never returns an uppercase ASCII letter. -/
theorem toLower_isUpper (c : Char) : (Char.toLower c).isUpper = false := by
  show (if c.toNat ≥ 65 ∧ c.toNat ≤ 90 then Char.ofNat (c.toNat + 32) else c).isUpper = false
  by_cases h : c.toNat ≥ 65 ∧ c.toNat ≤ 90
  · rw [if_pos h]
    by_cases hb : (Char.ofNat (c.toNat + 32)).isUpper
    · exfalso
      have h2 := (isUpper_iff _).mp hb
      rw [toNat_ofNat_valid (c.toNat + 32) (Or.inl (by omega))] at h2
      omega
    · simpa using hb
  · rw [if_neg h]
    by_cases hb : c.isUpper
    · exact absurd ((isUpper_iff c).mp hb) h
    · simpa using hb

/-! ## Tokenizer lemmas and claim C10 -/

/-- Every token produced by the splitter is non-empty. -/
theorem splitTokens_ne_nil (l : List Char) :
    ∀ (acc : List Char), ∀ t ∈ splitTokens l acc, t ≠ [] := by
  induction l with
  | nil =>
    intro acc t ht
    by_cases h : acc.isEmpty
    · simp [splitTokens, h] at ht
    · simp [splitTokens, h] at ht
      subst ht
      simpa [List.isEmpty_iff] using h
  | cons c rest ih =>
    intro acc t ht
    by_cases hw : isWs c
    · by_cases h : acc.isEmpty
      · exact ih [] t (by simpa [splitTokens, hw, h] using ht)
      · simp [splitTokens, hw, h] at ht
        rcases ht with ht | ht
        · subst ht; simpa [List.isEmpty_iff] using h
        · exact ih [] t ht
    · exact ih (c :: acc) t (by simpa [splitTokens, hw] using ht)

/-- Characters of splitter tokens are non-whitespace characters drawn from
the accumulator or the input. -/
theorem splitTokens_chars (P : Char → Prop) (l : List Char) :
    ∀ (acc : List Char), (∀ c ∈ acc, isWs c = false ∧ P c) →
      (∀ c ∈ l, isWs c = true ∨ P c) →
      ∀ t ∈ splitTokens l acc, ∀ c ∈ t, isWs c = false ∧ P c := by
  induction l with
  | nil =>
    intro acc hacc _ t ht c hc
    by_cases h : acc.isEmpty
    · simp [splitTokens, h] at ht
    · simp [splitTokens, h] at ht
      subst ht
      exact hacc c (by simpa using hc)
  | cons x rest ih =>
    intro acc hacc hl t ht c hc
    by_cases hw : isWs x
    · by_cases h : acc.isEmpty
      · refine ih [] (by simp) (fun c hc => hl c (List.mem_cons_of_mem _ hc)) t ?_ c hc
        simpa [splitTokens, hw, h] using ht
      · simp [splitTokens, hw, h] at ht
        rcases ht with ht | ht
        · subst ht
          exact hacc c (by simpa using hc)
        · exact ih [] (by simp) (fun c hc => hl c (List.mem_cons_of_mem _ hc)) t ht c hc
    · have hx : isWs x = true ∨ P x := hl x (List.mem_cons_self x rest)
      have hx' : P x := hx.resolve_left (by simpa using hw)
      refine ih (x :: acc) ?_ (fun c hc => hl c (List.mem_cons_of_mem _ hc)) t ?_ c hc
      · intro d hd
        rcases List.mem_cons.mp hd with hd | hd
        · subst hd; exact ⟨by simpa using hw, hx'⟩
        · exact hacc d hd
      · simpa [splitTokens, hw] using ht

/-- **C10**: `tokenize` is total and deterministic (it is a pure function of
its input), the empty input yields the empty token sequence, and every
produced token is non-empty and consists purely of lowercased word
characters — everything else has been replaced by spaces and split away. -/
theorem tokenize_total_and_clean (s : String) :
    tokenize "" = [] ∧
    ∀ t ∈ tokenize s, t ≠ "" ∧
      ∀ c ∈ t.data, isWordChar c = true ∧ isWs c = false ∧ c.isUpper = false := by
  constructor
  · rfl
  · intro t ht
    simp only [tokenize, List.mem_map] at ht
    obtain ⟨tl, htl, rfl⟩ := ht
    have hdata : (String.mk tl).data = tl := rfl
    have hchars :
        ∀ c ∈ tl, isWs c = false ∧ (isWordChar c = true ∧ c.isUpper = false) := by
      refine splitTokens_chars (fun c => isWordChar c = true ∧ c.isUpper = false)
        _ [] (by simp) ?_ tl htl
      intro c hc
      simp only [List.mem_map] at hc
      obtain ⟨c1, hc1, rfl⟩ := hc
      obtain ⟨c0, -, rfl⟩ := hc1
      by_cases hk : isWordChar (Char.toLower c0) || isWs (Char.toLower c0)
      · rw [if_pos hk]
        by_cases hwsl : isWs (Char.toLower c0)
        · exact Or.inl hwsl
        · refine Or.inr ⟨?_, toLower_isUpper c0⟩
          rcases Bool.or_eq_true_iff.mp hk with h | h
          · exact h
          · exact absurd h hwsl
      · rw [if_neg hk]
        exact Or.inl (by simp [isWs])
    refine ⟨?_, ?_⟩
    · intro hempty
      have : tl = [] := by
        have := congrArg String.data hempty
        simpa using this
      exact splitTokens_ne_nil _ [] tl htl this
    · intro c hc
      rcases hchars c (by simpa [hdata] using hc) with ⟨h1, h2, h3⟩
      exact ⟨h2, h1, h3⟩

/-- Closed instance of the tokenizer claim: the witness input
`"Hello, world!"` yields the non-empty lowercase word token `"hello"`. -/
theorem tokenize_total_and_clean_witness :
    tokenize "" = [] ∧
    ("hello" ≠ "" ∧
      ∀ c ∈ ("hello" : String).data,
        isWordChar c = true ∧ isWs c = false ∧ c.isUpper = false) :=
  ⟨(tokenize_total_and_clean "Hello, world!").1,
   (tokenize_total_and_clean "Hello, world!").2 "hello" (by decide)⟩

/-! ## Regex matcher claims C7 and C8 -/

/-- Accumulating matches with append equals filtering then mapping. -/
theorem foldl_append_filter {α β : Type} (p : α → Bool) (f : α → β) (l : List α) :
    ∀ acc : List β,
      l.foldl (fun acc x => if p x then acc ++ [f x] else acc) acc =
        acc ++ (l.filter p).map f := by
  induction l with
  | nil => intro acc; simp
  | cons x xs ih =>
    intro acc
    by_cases h : p x
    · simp [h, ih]
    · simp [h, ih]

/-- **C7**: the length guard rejects every pattern longer than 200 characters
with a `pattern_too_long` error value — for *every* engine, so no compilation
is consulted; a pattern of exactly 200 characters is never rejected for
length; and a compilation failure surfaces as an `invalid_pattern` error
value carrying the engine's message. The model is a total function, so no
exception escapes this boundary. -/
theorem regex_error_handling {K : Type} [LinearOrderedField K] (eng : RegexEngine)
    (tools : List CatalogTool) (pattern : String) (limit : Nat) :
    (MAX_REGEX_LENGTH < pattern.length →
      searchWithRegex (K := K) eng tools pattern limit =
        .error { code := .pattern_too_long
                 message := "Pattern exceeds maximum length of 200 characters" }) ∧
    (pattern.length = MAX_REGEX_LENGTH →
      ∀ msg, searchWithRegex (K := K) eng tools pattern limit ≠
        .error { code := .pattern_too_long, message := msg }) ∧
    (∀ msg, pattern.length ≤ MAX_REGEX_LENGTH →
      eng.compile (strippedPattern pattern) (regexFlags pattern) = .error msg →
      searchWithRegex (K := K) eng tools pattern limit =
        .error { code := .invalid_pattern, message := msg }) := by
  refine ⟨?_, ?_, ?_⟩
  · intro hlen
    simp [searchWithRegex, hlen]
  · intro hlen msg
    have hnot : ¬ MAX_REGEX_LENGTH < pattern.length := by omega
    simp only [searchWithRegex, if_neg hnot]
    cases hcomp : eng.compile (strippedPattern pattern) (regexFlags pattern) with
    | error m => simp
    | ok test => simp
  · intro msg hlen hcomp
    have hnot : ¬ MAX_REGEX_LENGTH < pattern.length := by omega
    simp only [searchWithRegex, if_neg hnot, hcomp]

/-- Closed instance of C7: a 201-character pattern is rejected as too long
(under an engine that would reject anything, showing compilation is not
consulted), a 200-character pattern is not rejected for length, and the
engine's failure message is carried through as `invalid_pattern`. -/
theorem regex_error_handling_witness :
    (searchWithRegex (K := ℚ) engReject [] pat201 5 =
      .error { code := .pattern_too_long
               message := "Pattern exceeds maximum length of 200 characters" }) ∧
    (searchWithRegex (K := ℚ) engReject [] pat200 5 =
      .error { code := .invalid_pattern, message := "bad" }) ∧
    (∀ msg, searchWithRegex (K := ℚ) engReject [] pat200 5 ≠
      .error { code := .pattern_too_long, message := msg }) :=
  ⟨(regex_error_handling engReject [] pat201 5).1
     (by norm_num [pat201, String.length, MAX_REGEX_LENGTH]),
   (regex_error_handling engReject [] pat200 5).2.2 "bad"
     (by norm_num [pat200, String.length, MAX_REGEX_LENGTH]) rfl,
   (regex_error_handling engReject [] pat200 5).2.1
     (by norm_num [pat200, String.length, MAX_REGEX_LENGTH])⟩

/-- **C8**: on the success path the matcher is compiled from the
`(?i)`-stripped pattern with the `"i"` flag exactly when the marker led;
every entry whose `searchableText` the matcher accepts qualifies with binary
score 1; results are ordered by ascending `idString` and truncated to
`limit`; and a matcher accepting everything (the host behavior of the empty
pattern) qualifies every entry. -/
theorem regex_success_path {K : Type} [LinearOrderedField K] (eng : RegexEngine)
    (tools : List CatalogTool) (pattern : String) (limit : Nat) (test : String → Bool)
    (hlen : pattern.length ≤ MAX_REGEX_LENGTH)
    (hc : eng.compile (strippedPattern pattern) (regexFlags pattern) = .ok test) :
    (searchWithRegex (K := K) eng tools pattern limit =
      .ok (((sortCmp (fun a b => decide (a.1.idString ≤ b.1.idString))
          ((tools.filter fun t => test t.searchableText).map fun t => (t, (1 : K)))).take limit).map
        fun p =>
          { tool := p.1.id
            idString := p.1.idString
            score := p.2
            preview := p.1.description
            signature := generateSignature p.1 })) ∧
    (pattern.startsWith "(?i)" →
      strippedPattern pattern = pattern.drop 4 ∧ regexFlags pattern = "i") ∧
    (¬ pattern.startsWith "(?i)" →
      strippedPattern pattern = pattern ∧ regexFlags pattern = "") ∧
    (∀ res, searchWithRegex (K := K) eng tools pattern limit = .ok res →
      (∀ r ∈ res, r.score = 1) ∧
      (res.map fun r => r.idString).Chain' (· ≤ ·)) ∧
    ((∀ s, test s = true) →
      searchWithRegex (K := K) eng tools pattern limit =
        .ok (((sortCmp (fun a b => decide (a.1.idString ≤ b.1.idString))
            (tools.map fun t => (t, (1 : K)))).take limit).map
          fun p =>
            { tool := p.1.id
              idString := p.1.idString
              score := p.2
              preview := p.1.description
              signature := generateSignature p.1 })) := by
  have hnot : ¬ MAX_REGEX_LENGTH < pattern.length := by omega
  have hmain :
      searchWithRegex (K := K) eng tools pattern limit =
        .ok (((sortCmp (fun a b => decide (a.1.idString ≤ b.1.idString))
            ((tools.filter fun t => test t.searchableText).map fun t => (t, (1 : K)))).take limit).map
          fun p =>
            { tool := p.1.id
              idString := p.1.idString
              score := p.2
              preview := p.1.description
              signature := generateSignature p.1 }) := by
    simp only [searchWithRegex, if_neg hnot, hc]
    rw [foldl_append_filter (fun t => test t.searchableText) (fun t => (t, (1 : K))) tools []]
    simp
  refine ⟨hmain, fun h => by simp [strippedPattern, regexFlags, h],
    fun h => by simp [strippedPattern, regexFlags, h], ?_, ?_⟩
  · intro res hres
    rw [hmain] at hres
    injection hres with hres
    subst hres
    constructor
    · intro r hr
      simp only [List.mem_map] at hr
      obtain ⟨p, hp, rfl⟩ := hr
      have hp' := List.mem_of_mem_take hp
      have hp'' := (mem_sortCmp _ p _).mp hp'
      simp only [List.mem_map] at hp''
      obtain ⟨t, _, rfl⟩ := hp''
      rfl
    · rw [List.map_map]
      have hchain := chain_sortCmp (fun a b : CatalogTool × K => decide (a.1.idString ≤ b.1.idString))
        (fun a b => by
          rcases le_total a.1.idString b.1.idString with h | h
          · exact Or.inl (by simpa using h)
          · exact Or.inr (by simpa using h))
        ((tools.filter fun t => test t.searchableText).map fun t => (t, (1 : K)))
      have htake := chain_take _ _ limit hchain
      rw [List.chain'_map]
      exact htake.imp fun hab => by simp_all
  · intro hall
    rw [hmain]
    have : (tools.filter fun t => test t.searchableText) = tools :=
      List.filter_eq_self.mpr fun t _ => hall t.searchableText
    rw [this]

/-- Closed instance of C8: under an engine whose matcher accepts everything,
the empty pattern returns the single indexed tool with score 1. -/
theorem regex_success_path_witness :
    searchWithRegex (K := ℚ) engAccept [simpleTool "a"] "" 5 =
      .ok [{ tool := { server := "s", name := "a" }
             idString := "a"
             score := 1
             preview := ""
             signature := "a()" }] := by
  have h := regex_success_path (K := ℚ) engAccept [simpleTool "a"] "" 5
    (fun _ => true) (by decide) rfl
  rw [h.1]
  rfl

/-! ## Signature generation: claim C6 -/

theorem isPrefixL_append_left (xs ys : List Char) :
    ∀ l, isPrefixL (xs ++ ys) l = true → isPrefixL xs l = true := by
  induction xs with
  | nil => intro l _; rfl
  | cons a as ih =>
    intro l h
    cases l with
    | nil => simp [isPrefixL] at h
    | cons b bs =>
      simp only [List.cons_append, isPrefixL, Bool.and_eq_true] at h ⊢
      exact ⟨h.1, ih bs h.2⟩

theorem containsL_of_isPrefixL (sub l : List Char) (h : isPrefixL sub l = true) :
    containsL l sub = true := by
  cases l with
  | nil =>
    cases sub with
    | nil => rfl
    | cons a as => simp [isPrefixL] at h
  | cons c t => simp [containsL, h]

theorem containsL_cons_of (c : Char) (t sub : List Char)
    (h : containsL t sub = true) : containsL (c :: t) sub = true := by
  simp [containsL, h]

/-- Shrinking the needle: containment of `c0 :: (s1 ++ s2)` gives containment
of `s1`. -/
theorem containsL_strip (c0 : Char) (s1 s2 : List Char) :
    ∀ l, containsL l (c0 :: (s1 ++ s2)) = true → containsL l s1 = true := by
  intro l
  induction l with
  | nil => intro h; simp [containsL] at h
  | cons c t ih =>
    intro h
    simp only [containsL, Bool.or_eq_true] at h
    rcases h with h | h
    · simp only [isPrefixL, Bool.and_eq_true] at h
      have hpre := isPrefixL_append_left s1 s2 t h.2
      exact containsL_cons_of c t _ (containsL_of_isPrefixL _ t hpre)
    · exact containsL_cons_of c t _ (ih h)

/-- A string containing `"(optional)"` also contains `"optional"`. -/
theorem strIncludes_paren_optional (x : String)
    (h : strIncludes x "(optional)" = true) : strIncludes x "optional" = true := by
  have h' : containsL x.data ("(optional)".data) = true := h
  have hd : ("(optional)".data) = '(' :: ("optional".data ++ [')']) := by decide
  rw [hd] at h'
  exact containsL_strip '(' _ _ x.data h' 

/-- The BM25-mode optional marker reduces to a CASE-SENSITIVE check for
`"optional"` (the `"(optional)"` disjunct is subsumed). -/
theorem argOptionalMark_eq (arg : ToolArg) :
    argOptionalMark arg =
      if (arg.description.map fun d => strIncludes d "optional").getD false
      then "?" else "" := by
  cases arg with
  | mk nm desc =>
    cases desc with
    | none => rfl
    | some d =>
      simp only [argOptionalMark, Option.map_some, Option.getD_some]
      by_cases hb : strIncludes d "optional"
      · simp [hb]
      · by_cases hp : strIncludes d "(optional)"
        · exact absurd (strIncludes_paren_optional d hp) hb
        · simp [hb, hp]

/-- The regex-mode optional test reduces to the case-insensitive check the
specification describes. -/
theorem genOpt_eq (desc : Option String) :
    (strIncludes (strToLower (desc.getD "")) "optional"
      || strIncludes (strToLower (desc.getD "")) "(optional)") =
      (desc.map fun d => containsCI d "optional").getD false := by
  cases desc with
  | none => rfl
  | some d =>
    simp only [Option.getD_some, Option.map_some]
    by_cases hb : strIncludes (strToLower d) "optional"
    · have : containsCI d "optional" = true := hb
      simp [hb, this]
    · by_cases hp : strIncludes (strToLower d) "(optional)"
      · exact absurd (strIncludes_paren_optional _ hp) hb
      · have : containsCI d "optional" = false := by
          simpa [containsCI] using hb
        simp [hb, hp, this]

/-- **C6 (amended)**: in BM25 mode (`toSearchResult`) an argument carries the
`?` suffix if and only if its description contains `"optional"`
CASE-SENSITIVELY, while in regex mode (`generateSignature`) the check is
case-insensitive as the claim states; both modes produce
`send_email(to, subject, body?)` on the specification's example, whose
"optional" is lowercase. -/
theorem signature_generation_modes {K : Type} [LinearOrderedField K]
    (tool : CatalogTool) (score : K) :
    ((toSearchResult tool score).signature =
      tool.id.name ++ "(" ++ String.intercalate ", "
        (tool.args.map fun arg =>
          arg.name ++
            (if (arg.description.map fun d => strIncludes d "optional").getD false
             then "?" else "")) ++ ")") ∧
    (generateSignature tool =
      tool.id.name ++ "(" ++ String.intercalate ", "
        (tool.args.map fun arg =>
          arg.name ++
            (if (arg.description.map fun d => containsCI d "optional").getD false
             then "?" else "")) ++ ")") ∧
    (toSearchResult (K := K) sendEmailTool score).signature =
      "send_email(to, subject, body?)" ∧
    generateSignature sendEmailTool = "send_email(to, subject, body?)" := by
  refine ⟨?_, ?_, ?_, ?_⟩
  · simp only [toSearchResult]
    have hmap : tool.args.map (fun arg => arg.name ++ argOptionalMark arg)
        = tool.args.map (fun arg =>
            arg.name ++
              (if (arg.description.map fun d => strIncludes d "optional").getD false
               then "?" else "")) := by
      apply List.map_congr_left
      intro arg _
      rw [argOptionalMark_eq]
    rw [hmap]
  · simp only [generateSignature]
    have hmap : tool.args.map (fun arg =>
          arg.name ++
            (if (strIncludes (strToLower (arg.description.getD "")) "optional"
                || strIncludes (strToLower (arg.description.getD "")) "(optional)")
             then "?" else ""))
        = tool.args.map (fun arg =>
            arg.name ++
              (if (arg.description.map fun d => containsCI d "optional").getD false
               then "?" else "")) := by
      apply List.map_congr_left
      intro arg _
      rw [genOpt_eq]
    rw [hmap]
  · rfl
  · rfl

/-- Helper for the C6 counterexample: the single document's BM25 score. -/
theorem docScore_optState :
    docScore Real.log optState ["alpha"] "s_t" ["alpha"] = Real.log (4 / 3) := by
  simp only [docScore, List.foldl_cons, List.foldl_nil, zero_add, tokenScore, idfOf, tfOf,
    bm25K1, bm25B, optState, lookupA]
  norm_num

/-- Helper for the C6 counterexample: the scores map of the search. -/
theorem scoresList_optState :
    scoresList Real.log optState ["alpha"] = [("s_t", Real.log (4 / 3))] := by
  have hpos : (0 : ℝ) < Real.log (4 / 3) := Real.log_pos (by norm_num)
  have hdocs : optState.documents = [("s_t", ⟨["alpha"], optTool⟩)] := rfl
  simp only [scoresList, hdocs, List.foldl_cons, List.foldl_nil]
  rw [show docScore Real.log optState ["alpha"] ("s_t", (⟨["alpha"], optTool⟩ : DocRec)).1
      ("s_t", (⟨["alpha"], optTool⟩ : DocRec)).2.tokens = Real.log (4 / 3) from docScore_optState]
  rw [if_pos hpos]
  rfl

/-- Counterexample to C6 as stated: a BM25-mode search over the concrete
program (`ℝ`, `Math.log`) produces the signature `t(x)` — no `?` — for an
argument whose description `"Optional"` case-insensitively contains
`"optional"`; the claim demands `t(x?)`. -/
theorem signature_case_insensitive_cex :
    (search Real.log optState "alpha" 5).map (fun r => r.signature) = ["t(x)"] ∧
    containsCI "Optional" "optional" = true ∧
    (["t(x)"] : List String) ≠ ["t(x?)"] := by
  refine ⟨?_, by decide, by decide⟩
  have hcond : ((tokenize "alpha").isEmpty || decide (optState.totalDocs = 0)) = false := by
    decide
  have htok : tokenize "alpha" = ["alpha"] := by decide
  simp only [search, hcond, Bool.false_eq_true, if_false, htok, scoresList_optState]
  rfl

/-! ## Normalizer: claim C9 -/

/-- The inline per-entry record of `extractArgs` is `argOfProp`. -/
theorem extract_entry_eq (entries : List (String × JsonVal)) :
    (entries.map fun p =>
      ({ name := p.1
         description :=
           match p.2 with
           | .obj pf =>
             match jsonGet pf "description" with
             | some d => some (jsToString d)
             | none => none
           | _ => none } : ToolArg)) = entries.map argOfProp := by
  apply List.map_congr_left
  intro p _
  cases hp : p.2 <;> simp [argOfProp, hp, Option.map]
  cases jsonGet _ "description" <;> rfl

/-- `extractArgs` in terms of the schema-shape gate: a schema passing the
gate maps the walked entries through `argOfProp`, anything else degrades
to `[]`. -/
theorem extractArgs_eq (schema : JsonVal) :
    extractArgs schema =
      ((schemaProps schema).map fun props => props.map argOfProp).getD [] := by
  cases schema with
  | obj fields =>
    simp only [extractArgs, schemaProps]
    cases h1 : jsonGet fields "type" with
    | none => rfl
    | some v1 =>
      cases v1 with
      | str s =>
        cases h2 : jsonGet fields "properties" with
        | none => by_cases hs : s = "object" <;> simp [hs]
        | some v2 =>
          cases v2 with
          | obj props =>
            by_cases hs : s = "object"
            · subst hs
              simp only [jsEntries, Option.map_some, Option.getD_some]
              exact extract_entry_eq props
            · simp [hs]
          | arr a =>
            by_cases hs : s = "object"
            · subst hs
              simp only [jsEntries, Option.map_some, Option.getD_some]
              exact extract_entry_eq _
            · simp [hs]
          | str s2 => by_cases hs : s = "object" <;> simp [hs, jsEntries]
          | num n => by_cases hs : s = "object" <;> simp [hs, jsEntries]
          | bool b => by_cases hs : s = "object" <;> simp [hs, jsEntries]
          | null => by_cases hs : s = "object" <;> simp [hs, jsEntries]
      | num n => rfl
      | bool b => rfl
      | null => rfl
      | obj o => rfl
      | arr a => rfl
  | str s => rfl
  | num n => rfl
  | bool b => rfl
  | null => rfl
  | arr a => rfl

/-- The argument part of the searchable text: the source's `foldr` equals the
flattened per-argument fragments. -/
theorem searchable_parts_eq (args : List ToolArg) :
    args.foldr (fun arg acc =>
        arg.name ::
          (match arg.description with
           | some d => if d = "" then acc else d :: acc
           | none => acc)) [] =
      (args.map fun a =>
        [a.name] ++ (match a.description with
                     | some d => if d = "" then [] else [d]
                     | none => [])).flatten := by
  induction args with
  | nil => rfl
  | cons a as ih =>
    cases hd : a.description with
    | none => simp [hd, ih]
    | some d =>
      by_cases he : d = "" <;> simp [hd, he, ih]

/-- **C9 (amended)**: argument extraction walks `Object.entries(properties)`
for an object-typed schema whose `properties` value is of JavaScript object
type — a map or an array, an array yielding index-named entries "0", "1", …
— emitting one record per entry in order with the description coerced to a
string via `String(...)` whenever the property object carries a
`description` key (of any type, not only strings); any other shape degrades
to an empty argument list; and `searchableText` is the space-joined
concatenation of idString, local name, description (omitted if empty or
absent), then each argument's name and description, the argument
description omitted when absent or empty. -/
theorem normalize_extract_and_text (serverName : String) (tool : RawTool) :
    (∀ props, schemaProps tool.inputSchema = some props →
      extractArgs tool.inputSchema = props.map argOfProp) ∧
    (schemaProps tool.inputSchema = none → extractArgs tool.inputSchema = []) ∧
    (∀ fields es, jsonGet fields "type" = some (JsonVal.str "object") →
      jsonGet fields "properties" = some (JsonVal.arr es) →
      extractArgs (JsonVal.obj fields) =
        (es.enum.map fun p => (toString p.1, p.2)).map argOfProp) ∧
    (normalizeTool serverName tool).searchableText =
      specSearchableTextAmended (serverName ++ "_" ++ tool.name) tool.name
        tool.description (extractArgs tool.inputSchema) := by
  refine ⟨?_, ?_, ?_, ?_⟩
  · intro props hp
    rw [extractArgs_eq, hp]
    rfl
  · intro hp
    rw [extractArgs_eq, hp]
    rfl
  · intro fields es h1 h2
    rw [extractArgs_eq]
    have hsp : schemaProps (JsonVal.obj fields) =
        some (es.enum.map fun p => (toString p.1, p.2)) := by
      simp only [schemaProps, h1, h2, jsEntries]
    rw [hsp]
    rfl
  · show buildSearchableText serverName tool (extractArgs tool.inputSchema) = _
    unfold buildSearchableText specSearchableTextAmended
    rw [searchable_parts_eq]

/-- Closed instance of the amended C9 at concrete descriptors: the map-shaped
properties of `cexRawTool`, an array-shaped properties value (index-named
argument records), and the searchable-text equation. -/
theorem normalize_extract_and_text_witness :
    (extractArgs cexRawTool.inputSchema =
      [("x", JsonVal.obj [("description", JsonVal.num 42)]),
       ("y", JsonVal.obj [("description", JsonVal.str "")])].map argOfProp) ∧
    (extractArgs (JsonVal.obj
        [("type", JsonVal.str "object"),
         ("properties", JsonVal.arr
           [JsonVal.str "a", JsonVal.obj [("description", JsonVal.str "dd")]])]) =
      ([JsonVal.str "a", JsonVal.obj [("description", JsonVal.str "dd")]].enum.map
        fun p => (toString p.1, p.2)).map argOfProp) ∧
    (normalizeTool "s" cexRawTool).searchableText =
      specSearchableTextAmended "s_t" "t" (some "d") (extractArgs cexRawTool.inputSchema) :=
  ⟨(normalize_extract_and_text "s" cexRawTool).1
      [("x", JsonVal.obj [("description", JsonVal.num 42)]),
       ("y", JsonVal.obj [("description", JsonVal.str "")])] rfl,
   (normalize_extract_and_text "s" cexRawTool).2.2.1
      [("type", JsonVal.str "object"),
       ("properties", JsonVal.arr
         [JsonVal.str "a", JsonVal.obj [("description", JsonVal.str "dd")]])]
      [JsonVal.str "a", JsonVal.obj [("description", JsonVal.str "dd")]] rfl rfl,
   (normalize_extract_and_text "s" cexRawTool).2.2.2⟩

/-- Counterexample to C9 as stated: the source coerces a numeric property
`description` with `String(...)` (the claim says a description is included
only when of string type); it drops an empty-string argument description
from `searchableText` (the claim would keep it, producing a different
joined string); and an object-typed schema whose `properties` is an ARRAY
does not degrade to an empty argument list (the claim's "only ... a
properties map ... any other shape degrades") but yields index-named
argument records via `Object.entries`. -/
theorem normalize_claim_cex :
    extractArgs cexRawTool.inputSchema =
      [{ name := "x", description := some "42" },
       { name := "y", description := some "" }] ∧
    specExtractArgsClaim cexRawTool.inputSchema =
      [{ name := "x", description := none },
       { name := "y", description := some "" }] ∧
    extractArgs cexRawTool.inputSchema ≠ specExtractArgsClaim cexRawTool.inputSchema ∧
    (normalizeTool "s" cexRawTool).searchableText = "s_t t d x 42 y" ∧
    specSearchableTextClaim "s_t" "t" (some "d")
      (specExtractArgsClaim cexRawTool.inputSchema) = "s_t t d x y " ∧
    ("s_t t d x 42 y" : String) ≠ "s_t t d x y " ∧
    extractArgs (JsonVal.obj
        [("type", JsonVal.str "object"),
         ("properties", JsonVal.arr [JsonVal.str "a", JsonVal.str "b"])]) =
      [{ name := "0", description := none }, { name := "1", description := none }] ∧
    specExtractArgsClaim (JsonVal.obj
        [("type", JsonVal.str "object"),
         ("properties", JsonVal.arr [JsonVal.str "a", JsonVal.str "b"])]) = [] := by
  refine ⟨by decide, by decide, by decide, by decide, by decide, by decide,
    by decide, by decide⟩

/-! ## Chunked asynchronous add: claim C3 -/

/-- The chunk loop leaves exactly the state of a plain sequential fold. -/
theorem chunkLoop_fst (cs : Nat) (st0 : BM25State K) (tools0 : List CatalogTool) :
    (chunkLoop cs st0 tools0).1 = tools0.foldl addToolInternal st0 := by
  refine chunkLoop.induct cs
    (fun st tools => (chunkLoop cs st tools).1 = tools.foldl addToolInternal st)
    ?_ ?_ st0 tools0
  · intro st tools h
    rw [chunkLoop, dif_pos h]
  · intro st tools h ih
    rw [chunkLoop, dif_neg h]
    show (chunkLoop cs ((tools.take cs).foldl addToolInternal st) (tools.drop cs)).1 =
      tools.foldl addToolInternal st
    rw [ih, ← List.foldl_append, List.take_append_drop]

/-- The chunk loop yields once between consecutive chunks and not after the
final one: `⌈n / cs⌉ - 1` yields for `n` tools. -/
theorem chunkLoop_snd (cs : Nat) (hcs : 1 ≤ cs) (st0 : BM25State K)
    (tools0 : List CatalogTool) :
    (chunkLoop cs st0 tools0).2 =
      (if tools0.length = 0 then 0 else (tools0.length - 1) / cs) := by
  refine chunkLoop.induct cs
    (fun st tools => (chunkLoop cs st tools).2 =
      (if tools.length = 0 then 0 else (tools.length - 1) / cs))
    ?_ ?_ st0 tools0
  · intro st tools h
    rw [chunkLoop, dif_pos h]
    rcases h with h | h
    · omega
    · by_cases h0 : tools.length = 0
      · simp [h0]
      · rw [if_neg h0]
        show 0 = (tools.length - 1) / cs
        exact (Nat.div_eq_of_lt (by omega)).symm
  · intro st tools h ih
    rw [chunkLoop, dif_neg h]
    push_neg at h
    show (chunkLoop cs ((tools.take cs).foldl addToolInternal st) (tools.drop cs)).2 + 1 = _
    rw [ih]
    have hlen : (tools.drop cs).length = tools.length - cs := by
      simp [List.length_drop]
    rw [hlen]
    have hne : ¬ tools.length - cs = 0 := by omega
    rw [if_neg hne, if_neg (by omega : ¬ tools.length = 0)]
    have hsplit : tools.length - 1 = (tools.length - cs - 1) + cs := by omega
    rw [hsplit, Nat.add_div_right _ (by omega : 0 < cs)]

/-- The asynchronous add produces exactly the batch-add state. -/
theorem addToolsAsync_fst (st : BM25State K) (tools : List CatalogTool) (cs : Nat) :
    (addToolsAsync st tools cs).1 = addToolsBatch st tools := by
  show recalcAvg (chunkLoop cs st tools).1 = addToolsBatch st tools
  rw [chunkLoop_fst]
  rfl

/-- **C3**: for `chunkSize ≥ 1` the chunked asynchronous add terminates with
exactly the batch-add state, so searches over the resulting index agree for
any two chunk sizes; it yields to the event loop between chunks — `(n-1)/cs`
times for `n` tools — and never after the final chunk; `indexToolsAsync` is
`clear()` followed by the chunked add. -/
theorem chunked_add_equivalence (st : BM25State K)
    (tools : List CatalogTool) (cs : Nat) (hcs : 1 ≤ cs) :
    (addToolsAsync st tools cs).1 = addToolsBatch st tools ∧
    (addToolsAsync st tools cs).2 =
      (if tools.length = 0 then 0 else (tools.length - 1) / cs) ∧
    (indexToolsAsync tools cs : BM25State K × Nat) = addToolsAsync emptyIndex tools cs ∧
    (∀ (lg : K → K) (q : String) (lim : Nat) (cs' : Nat), 1 ≤ cs' →
      search lg (indexToolsAsync (K := K) tools cs).1 q lim =
        search lg (indexToolsAsync (K := K) tools cs').1 q lim) := by
  refine ⟨addToolsAsync_fst st tools cs, ?_, rfl, ?_⟩
  · show (chunkLoop cs st tools).2 = _
    exact chunkLoop_snd cs hcs st tools
  · intro lg q lim cs' _
    have h1 : (indexToolsAsync (K := K) tools cs).1 = addToolsBatch emptyIndex tools :=
      addToolsAsync_fst emptyIndex tools cs
    have h2 : (indexToolsAsync (K := K) tools cs').1 = addToolsBatch emptyIndex tools :=
      addToolsAsync_fst emptyIndex tools cs'
    rw [h1, h2]

/-- Closed instance of C3: three tools, chunk size two — the state matches
the batch add and exactly one yield happens (between the two chunks). -/
theorem chunked_add_equivalence_witness :
    (1 : Nat) ≤ 2 ∧
    (addToolsAsync (emptyIndex (K := ℚ))
        [simpleTool "a", simpleTool "b", simpleTool "c"] 2).1 =
      addToolsBatch emptyIndex [simpleTool "a", simpleTool "b", simpleTool "c"] ∧
    (addToolsAsync (emptyIndex (K := ℚ))
        [simpleTool "a", simpleTool "b", simpleTool "c"] 2).2 = 1 := by
  refine ⟨by norm_num,
    (chunked_add_equivalence emptyIndex [simpleTool "a", simpleTool "b", simpleTool "c"]
      2 (by norm_num)).1, ?_⟩
  rw [(chunked_add_equivalence emptyIndex [simpleTool "a", simpleTool "b", simpleTool "c"]
    2 (by norm_num)).2.1]
  decide

/-! ## Add/remove inverse: claim C4 -/

/-- Removing a token immediately after counting it restores the frequency
map, provided the map never stores zero (the source maintains this: counts
are created at 1 and deleted before reaching 0). -/
theorem decrFreq_incrFreq_self (m : AList Nat) (t : String)
    (h : lookupA m t = none ∨ ∃ n, lookupA m t = some n ∧ 1 ≤ n) :
    decrFreq (incrFreq m t) t = m := by
  rcases h with h | ⟨n, h, hn⟩
  · have h1 : incrFreq m t = m ++ [(t, 1)] := by
      simp only [incrFreq, h, Option.getD_none]
      exact setA_absent m t 1 h
    rw [h1]
    simp only [decrFreq, lookupA_append_single m t 1 h, Option.getD_some]
    rw [if_pos (by norm_num)]
    exact eraseA_append_single m t 1 h
  · have h1 : incrFreq m t = setA m t (n + 1) := by simp [incrFreq, h]
    rw [h1]
    simp only [decrFreq, lookupA_setA_self, Option.getD_some]
    rw [if_neg (by omega), Nat.add_sub_cancel, setA_setA_self]
    exact setA_lookup_self m t n h

/-- Incrementing one token and decrementing a different one commute. -/
theorem decrFreq_incrFreq_comm (m : AList Nat) (t u : String) (hne : t ≠ u) :
    decrFreq (incrFreq m u) t = incrFreq (decrFreq m t) u := by
  have hune : u ≠ t := fun h => hne h.symm
  have hlt : lookupA (incrFreq m u) t = lookupA m t :=
    lookupA_setA_other m u t _ hune
  have hlu : lookupA (decrFreq m t) u = lookupA m u := by
    simp only [decrFreq]
    by_cases hc : (lookupA m t).getD 0 ≤ 1
    · rw [if_pos hc]
      exact lookupA_eraseA_other m t u hne
    · rw [if_neg hc]
      exact lookupA_setA_other m t u _ hne
  by_cases hc : (lookupA m t).getD 0 ≤ 1
  · have hL : decrFreq (incrFreq m u) t = eraseA (incrFreq m u) t := by
      simp only [decrFreq, hlt]
      rw [if_pos hc]
    have hR : incrFreq (decrFreq m t) u = setA (eraseA m t) u ((lookupA m u).getD 0 + 1) := by
      simp only [incrFreq, hlu]
      congr 1
      simp only [decrFreq]
      rw [if_pos hc]
    rw [hL, hR]
    simp only [incrFreq]
    exact eraseA_setA_comm m u t _ hune
  · obtain ⟨n, hlook⟩ : ∃ n, lookupA m t = some n := by
      cases hl : lookupA m t with
      | none => rw [hl] at hc; simp at hc
      | some n => exact ⟨n, rfl⟩
    have hn2 : 2 ≤ n := by
      rw [hlook] at hc
      simpa using hc
    have hL : decrFreq (incrFreq m u) t = setA (incrFreq m u) t (n - 1) := by
      simp only [decrFreq, hlt, hlook, Option.getD_some]
      rw [if_neg (by omega)]
    have hR : incrFreq (decrFreq m t) u = setA (setA m t (n - 1)) u ((lookupA m u).getD 0 + 1) := by
      simp only [incrFreq, hlu]
      congr 1
      simp only [decrFreq, hlook, Option.getD_some]
      rw [if_neg (by omega)]
    rw [hL, hR]
    simp only [incrFreq]
    exact setA_setA_comm_present m u t _ _ n hune hlook

/-- Decrementing a token absent from the increment phase commutes past it. -/
theorem decrFreq_foldl_incr_comm :
    ∀ (ts : List String) (m : AList Nat) (t : String), t ∉ ts →
      decrFreq (ts.foldl incrFreq m) t = ts.foldl incrFreq (decrFreq m t) := by
  intro ts
  induction ts with
  | nil => intro m t _; rfl
  | cons u us ih =>
    intro m t h
    have h1 : t ≠ u := fun hh => h (hh ▸ List.mem_cons_self u us)
    have h2 : t ∉ us := fun hh => h (List.mem_cons_of_mem _ hh)
    calc decrFreq ((u :: us).foldl incrFreq m) t
        = decrFreq (us.foldl incrFreq (incrFreq m u)) t := rfl
      _ = us.foldl incrFreq (decrFreq (incrFreq m u) t) := ih _ t h2
      _ = us.foldl incrFreq (incrFreq (decrFreq m t) u) := by
          rw [decrFreq_incrFreq_comm m t u h1]
      _ = (u :: us).foldl incrFreq (decrFreq m t) := rfl

/-- The whole decrement phase undoes the whole increment phase over a
duplicate-free token list, on a map without zero counts. -/
theorem freq_phase_cancel :
    ∀ (ts : List String) (m : AList Nat), ts.Nodup →
      (∀ t n, lookupA m t = some n → 1 ≤ n) →
      ts.foldl decrFreq (ts.foldl incrFreq m) = m := by
  intro ts
  induction ts with
  | nil => intro m _ _; rfl
  | cons t ts ih =>
    intro m hnd hpos
    rw [List.nodup_cons] at hnd
    have hstep : decrFreq (ts.foldl incrFreq (incrFreq m t)) t = ts.foldl incrFreq m := by
      rw [decrFreq_foldl_incr_comm ts _ t hnd.1]
      congr 1
      apply decrFreq_incrFreq_self
      cases hl : lookupA m t with
      | none => exact Or.inl rfl
      | some n => exact Or.inr ⟨n, rfl, hpos t n hl⟩
    calc (t :: ts).foldl decrFreq ((t :: ts).foldl incrFreq m)
        = ts.foldl decrFreq (decrFreq (ts.foldl incrFreq (incrFreq m t)) t) := rfl
      _ = ts.foldl decrFreq (ts.foldl incrFreq m) := by rw [hstep]
      _ = m := ih m hnd.2 hpos

/-- **C4**: on any index state whose average is consistent with its totals
and whose term map stores no zero counts (both hold for every state the
public API can produce), adding a not-yet-indexed entry and then removing it
by its `idString` returns `true` and restores the document map, term
document-frequency map, document-length map, `totalDocs`, `totalTokens` and
the average document length exactly. -/
theorem add_remove_inverse (st : BM25State K) (e : CatalogTool)
    (hdoc : lookupA st.documents e.idString = none)
    (hlen : lookupA st.docLengths e.idString = none)
    (havg : st.avgDocLength =
      (if st.totalDocs = 0 then 0 else (st.totalTokens : K) / (st.totalDocs : K)))
    (hpos : ∀ t n, lookupA st.docFreqs t = some n → 1 ≤ n) :
    removeTool (addTool st e) e.idString = (st, true) := by
  obtain ⟨docs, freqs, lens, avg, nd, nt⟩ := st
  simp only at hdoc hlen havg hpos
  have hhas : hasA docs e.idString = false := by simp [hasA, hdoc]
  have h1 : addTool (⟨docs, freqs, lens, avg, nd, nt⟩ : BM25State K) e =
      ⟨docs ++ [(e.idString, ⟨tokenize e.searchableText, e⟩)],
       (dedupFirst (tokenize e.searchableText)).foldl incrFreq freqs,
       lens ++ [(e.idString, (tokenize e.searchableText).length)],
       ((nt + (tokenize e.searchableText).length : Nat) : K) / ((nd + 1 : Nat) : K),
       nd + 1, nt + (tokenize e.searchableText).length⟩ := by
    unfold addTool addToolInternal
    simp only [hhas, Bool.false_eq_true, if_false]
    rw [setA_absent docs _ _ hdoc, setA_absent lens _ _ hlen]
    unfold recalcAvg
    simp only []
    rw [if_neg (by omega : ¬ nd + 1 = 0)]
  rw [h1]
  unfold removeTool
  simp only []
  rw [lookupA_append_single docs _ _ hdoc]
  simp only []
  rw [eraseA_append_single docs _ _ hdoc, eraseA_append_single lens _ _ hlen]
  rw [freq_phase_cancel _ freqs (nodup_dedupFirst _) hpos]
  simp only [Nat.add_sub_cancel]
  unfold recalcAvg
  simp only []
  by_cases h0 : nd = 0
  · rw [if_pos h0]
    rw [if_pos h0] at havg
    simp [havg]
  · rw [if_neg h0]
    rw [if_neg h0] at havg
    simp [havg]

/-- Closed instance of C4: adding `simpleTool "b"` to a one-document index
sharing its only token, then removing it, restores the index exactly. -/
theorem add_remove_inverse_witness :
    removeTool (addTool stW (simpleTool "b")) "b" = (stW, true) :=
  add_remove_inverse stW (simpleTool "b") rfl rfl (by norm_num [stW])
    (by
      intro t n h
      by_cases ht : "alpha" = t
      · simp [stW, lookupA, ht] at h
        omega
      · simp [stW, lookupA, ht] at h)

/-! ## Term statistics invariant: claim C5 -/

/-- Decomposition of a map around a bound key. -/
theorem lookupA_decomp {α : Type} (m : AList α) (k : String) (v : α)
    (h : lookupA m k = some v) :
    ∃ l₁ l₂, m = l₁ ++ (k, v) :: l₂ ∧ lookupA l₁ k = none ∧ eraseA m k = l₁ ++ l₂ := by
  induction m with
  | nil => simp at h
  | cons p rest ih =>
    obtain ⟨k', v'⟩ := p
    by_cases hk : k' = k
    · subst hk
      have hv : v' = v := by simpa using h
      subst hv
      exact ⟨[], rest, by simp⟩
    · simp only [lookupA_cons, if_neg hk] at h
      obtain ⟨l₁, l₂, hm, hl₁, he⟩ := ih h
      refine ⟨(k', v') :: l₁, l₂, by simp [hm], by simp [hk, hl₁], ?_⟩
      simp only [eraseA_cons, if_neg hk]
      rw [he]
      simp

/-- Counting documents containing a term splits over append. -/
theorem dfCountDocs_append (l₁ l₂ : AList DocRec) (t : String) :
    dfCountDocs (l₁ ++ l₂) t = dfCountDocs l₁ t + dfCountDocs l₂ t := by
  simp [dfCountDocs, List.filter_append]

/-- Removing a present document lowers each of its terms' counts by one. -/
theorem dfCountDocs_eraseA (docs : AList DocRec) (idStr : String) (doc : DocRec)
    (t : String) (hl : lookupA docs idStr = some doc) :
    dfCountDocs (eraseA docs idStr) t =
      dfCountDocs docs t - (if t ∈ doc.tokens then 1 else 0) := by
  obtain ⟨l₁, l₂, hm, -, he⟩ := lookupA_decomp docs idStr doc hl
  subst hm
  rw [he, dfCountDocs_append, dfCountDocs_append]
  have hsing : dfCountDocs [(idStr, doc)] t = (if t ∈ doc.tokens then 1 else 0) := by
    simp only [dfCountDocs, List.filter]
    by_cases ht : t ∈ doc.tokens <;> simp [ht]
  have : dfCountDocs ((idStr, doc) :: l₂) t =
      (if t ∈ doc.tokens then 1 else 0) + dfCountDocs l₂ t := by
    have := dfCountDocs_append [(idStr, doc)] l₂ t
    simpa [hsing] using this
  rw [this]
  omega

/-- A present document containing `t` forces a positive count. -/
theorem dfCountDocs_pos (docs : AList DocRec) (idStr : String) (doc : DocRec)
    (t : String) (hl : lookupA docs idStr = some doc) (ht : t ∈ doc.tokens) :
    1 ≤ dfCountDocs docs t := by
  obtain ⟨l₁, l₂, hm, -, -⟩ := lookupA_decomp docs idStr doc hl
  subst hm
  rw [dfCountDocs_append]
  have : dfCountDocs ((idStr, doc) :: l₂) t =
      (if t ∈ doc.tokens then 1 else 0) + dfCountDocs l₂ t := by
    have := dfCountDocs_append [(idStr, doc)] l₂ t
    have hsing : dfCountDocs [(idStr, doc)] t = (if t ∈ doc.tokens then 1 else 0) := by
      simp only [dfCountDocs, List.filter]
      by_cases ht' : t ∈ doc.tokens <;> simp [ht']
    simpa [hsing] using this
  rw [this, if_pos ht]
  omega

/-- Keys of an erased map form a sublist of the original keys. -/
theorem keysA_eraseA_sublist {α : Type} (m : AList α) (k : String) :
    (keysA (eraseA m k)).Sublist (keysA m) := by
  induction m with
  | nil => simp
  | cons p rest ih =>
    obtain ⟨k', v'⟩ := p
    by_cases hk : k' = k
    · simp only [eraseA_cons, if_pos hk, keysA, List.map_cons]
      exact (List.sublist_cons_self _ _)
    · simp only [eraseA_cons, if_neg hk, keysA, List.map_cons]
      exact List.Sublist.cons₂ _ ih

theorem keysA_eraseA_nodup {α : Type} (m : AList α) (k : String)
    (h : (keysA m).Nodup) : (keysA (eraseA m k)).Nodup :=
  (keysA_eraseA_sublist m k).nodup h

/-- With unique keys, erasing a key makes it unbound. -/
theorem lookupA_eraseA_self {α : Type} (m : AList α) (k : String)
    (h : (keysA m).Nodup) : lookupA (eraseA m k) k = none := by
  induction m with
  | nil => simp
  | cons p rest ih =>
    obtain ⟨k', v'⟩ := p
    simp only [keysA, List.map_cons, List.nodup_cons] at h
    by_cases hk : k' = k
    · subst hk
      simp only [eraseA_cons, if_pos rfl]
      rw [lookupA_eq_none_iff]
      exact h.1
    · simp [hk, ih h.2]

/-- The increment phase over duplicate-free tokens, on a map characterized
by the count function `f`, yields the map characterized by `f` bumped on the
phase's tokens. -/
theorem foldl_incr_char :
    ∀ (us : List String), us.Nodup → ∀ (m : AList Nat) (f : String → Nat),
      (∀ t, lookupA m t = (if f t = 0 then none else some (f t))) →
      ∀ t, lookupA (us.foldl incrFreq m) t =
        (if f t + (if t ∈ us then 1 else 0) = 0 then none
         else some (f t + (if t ∈ us then 1 else 0))) := by
  intro us
  induction us with
  | nil =>
    intro _ m f hm t
    simpa using hm t
  | cons u us ih =>
    intro hnd m f hm t
    rw [List.nodup_cons] at hnd
    have hgd : (lookupA m u).getD 0 = f u := by
      rw [hm u]
      by_cases h0 : f u = 0 <;> simp [h0]
    have hm1 : ∀ t, lookupA (incrFreq m u) t =
        (if (if t = u then f t + 1 else f t) = 0 then none
         else some (if t = u then f t + 1 else f t)) := by
      intro t
      by_cases ht : t = u
      · subst ht
        simp only [incrFreq, hgd]
        rw [lookupA_setA_self]
        simp
      · simp only [incrFreq, if_neg ht]
        rw [lookupA_setA_other m u t _ (fun hh => ht hh.symm)]
        exact hm t
    have := ih hnd.2 (incrFreq m u) (fun t => if t = u then f t + 1 else f t) hm1 t
    rw [List.foldl_cons] at *
    rw [this]
    by_cases ht : t = u
    · subst ht
      have htus : t ∉ us := hnd.1
      simp [htus]
    · simp [ht]

/-- The decrement phase over duplicate-free tokens with positive counts, on
a duplicate-free map characterized by `f`, yields the map characterized by
`f` lowered on the phase's tokens. -/
theorem foldl_decr_char :
    ∀ (us : List String), us.Nodup → ∀ (m : AList Nat) (f : String → Nat),
      (keysA m).Nodup →
      (∀ t, lookupA m t = (if f t = 0 then none else some (f t))) →
      (∀ t ∈ us, 1 ≤ f t) →
      (∀ t, lookupA (us.foldl decrFreq m) t =
        (if f t - (if t ∈ us then 1 else 0) = 0 then none
         else some (f t - (if t ∈ us then 1 else 0)))) ∧
      (keysA (us.foldl decrFreq m)).Nodup := by
  intro us
  induction us with
  | nil =>
    intro _ m f hk hm _
    exact ⟨fun t => by simpa using hm t, hk⟩
  | cons u us ih =>
    intro hnd m f hk hm hpos
    rw [List.nodup_cons] at hnd
    have hfu : 1 ≤ f u := hpos u (List.mem_cons_self u us)
    have hlu : lookupA m u = some (f u) := by
      rw [hm u, if_neg (by omega)]
    have hgd : (lookupA m u).getD 0 = f u := by rw [hlu]; rfl
    have hm1 : ∀ t, lookupA (decrFreq m u) t =
        (if (if t = u then f t - 1 else f t) = 0 then none
         else some (if t = u then f t - 1 else f t)) := by
      intro t
      by_cases ht : t = u
      · subst ht
        by_cases h1 : f t ≤ 1
        · have hft : f t = 1 := by omega
          simp only [decrFreq, hgd, if_pos h1, if_pos rfl]
          rw [lookupA_eraseA_self m t hk, hft]
          simp
        · simp only [decrFreq, hgd, if_neg h1]
          rw [lookupA_setA_self]
          have hne : ¬ (f t - 1 = 0) := by omega
          simp [hne]
      · by_cases h1 : f u ≤ 1
        · simp only [decrFreq, hgd, if_pos h1, if_neg ht]
          rw [lookupA_eraseA_other m u t (fun hh => ht hh.symm)]
          exact hm t
        · simp only [decrFreq, hgd, if_neg h1, if_neg ht]
          rw [lookupA_setA_other m u t _ (fun hh => ht hh.symm)]
          exact hm t
    have hk1 : (keysA (decrFreq m u)).Nodup := by
      simp only [decrFreq]
      by_cases h1 : (lookupA m u).getD 0 ≤ 1
      · rw [if_pos h1]; exact keysA_eraseA_nodup m u hk
      · rw [if_neg h1]; exact keysA_setA_nodup m u _ hk
    have hpos1 : ∀ t ∈ us, 1 ≤ (if t = u then f t - 1 else f t) := by
      intro t htus
      have : t ≠ u := fun hh => hnd.1 (hh ▸ htus)
      rw [if_neg this]
      exact hpos t (List.mem_cons_of_mem _ htus)
    obtain ⟨hchar, hnod⟩ := ih hnd.2 (decrFreq m u) (fun t => if t = u then f t - 1 else f t)
      hk1 hm1 hpos1
    refine ⟨fun t => ?_, hnod⟩
    rw [List.foldl_cons, hchar t]
    by_cases ht : t = u
    · subst ht
      have htus : t ∉ us := hnd.1
      simp [htus]
    · simp [ht]

/-- The increment phase preserves duplicate-free term keys. -/
theorem foldl_incr_keys_nodup :
    ∀ (us : List String) (m : AList Nat), (keysA m).Nodup →
      (keysA (us.foldl incrFreq m)).Nodup := by
  intro us
  induction us with
  | nil => intro m h; exact h
  | cons u us ih =>
    intro m h
    exact ih _ (keysA_setA_nodup m u _ h)

theorem recalcAvg_documents (s : BM25State K) : (recalcAvg s).documents = s.documents := by
  unfold recalcAvg
  split <;> rfl

theorem recalcAvg_docFreqs (s : BM25State K) : (recalcAvg s).docFreqs = s.docFreqs := by
  unfold recalcAvg
  split <;> rfl

theorem inv_recalcAvg (s : BM25State K) (h : TermStatsInv s) :
    TermStatsInv (recalcAvg s) := by
  obtain ⟨h1, h2, h3⟩ := h
  refine ⟨?_, ?_, ?_⟩
  · rw [recalcAvg_documents]; exact h1
  · rw [recalcAvg_docFreqs]; exact h2
  · intro t
    rw [recalcAvg_docFreqs, recalcAvg_documents]
    exact h3 t

theorem inv_addToolInternal (st : BM25State K) (tool : CatalogTool)
    (h : TermStatsInv st) : TermStatsInv (addToolInternal st tool) := by
  obtain ⟨hnd, hfk, hchar⟩ := h
  by_cases hh : hasA st.documents tool.idString
  · unfold addToolInternal
    rw [if_pos hh]
    exact ⟨hnd, hfk, hchar⟩
  · have hnone : lookupA st.documents tool.idString = none := by
      rcases hlk : lookupA st.documents tool.idString with _ | v
      · rfl
      · exact absurd (by simp [hasA, hlk]) hh
    unfold addToolInternal
    rw [if_neg hh]
    refine ⟨keysA_setA_nodup _ _ _ hnd, foldl_incr_keys_nodup _ _ hfk, ?_⟩
    intro t
    show lookupA ((dedupFirst (tokenize tool.searchableText)).foldl incrFreq st.docFreqs) t = _
    rw [foldl_incr_char (dedupFirst (tokenize tool.searchableText)) (nodup_dedupFirst _)
      st.docFreqs (fun t => dfCountDocs st.documents t) hchar t]
    have hset : setA st.documents tool.idString ⟨tokenize tool.searchableText, tool⟩ =
        st.documents ++ [(tool.idString, ⟨tokenize tool.searchableText, tool⟩)] :=
      setA_absent _ _ _ hnone
    have hsing : dfCountDocs [(tool.idString, ⟨tokenize tool.searchableText, tool⟩)] t =
        (if t ∈ tokenize tool.searchableText then 1 else 0) := by
      simp only [dfCountDocs, List.filter]
      by_cases ht : t ∈ tokenize tool.searchableText <;> simp [ht]
    have hcount : dfCountDocs
        (setA st.documents tool.idString ⟨tokenize tool.searchableText, tool⟩) t =
        dfCountDocs st.documents t + (if t ∈ tokenize tool.searchableText then 1 else 0) := by
      rw [hset, dfCountDocs_append, hsing]
    rw [hcount]
    by_cases ht : t ∈ tokenize tool.searchableText
    · have htd : t ∈ dedupFirst (tokenize tool.searchableText) :=
        (mem_dedupFirst _ t).mpr ht
      simp [ht, htd]
    · have htd : t ∉ dedupFirst (tokenize tool.searchableText) :=
        fun hc => ht ((mem_dedupFirst _ t).mp hc)
      simp [ht, htd]

theorem inv_removeTool (st : BM25State K) (idStr : String)
    (h : TermStatsInv st) : TermStatsInv ((removeTool st idStr).1) := by
  obtain ⟨hnd, hfk, hchar⟩ := h
  cases hl : lookupA st.documents idStr with
  | none =>
    unfold removeTool
    rw [hl]
    exact ⟨hnd, hfk, hchar⟩
  | some doc =>
    have hdecr := foldl_decr_char (dedupFirst doc.tokens) (nodup_dedupFirst _)
      st.docFreqs (fun t => dfCountDocs st.documents t) hfk hchar
      (fun t htm => dfCountDocs_pos st.documents idStr doc t hl
        ((mem_dedupFirst _ t).mp htm))
    unfold removeTool
    rw [hl]
    apply inv_recalcAvg
    refine ⟨keysA_eraseA_nodup _ _ hnd, hdecr.2, ?_⟩
    intro t
    show lookupA ((dedupFirst doc.tokens).foldl decrFreq st.docFreqs) t = _
    rw [hdecr.1 t]
    show _ = (if dfCountDocs (eraseA st.documents idStr) t = 0 then none else _)
    rw [dfCountDocs_eraseA st.documents idStr doc t hl]
    by_cases ht : t ∈ doc.tokens
    · have htd : t ∈ dedupFirst doc.tokens := (mem_dedupFirst _ t).mpr ht
      simp [ht, htd]
    · have htd : t ∉ dedupFirst doc.tokens := fun hc => ht ((mem_dedupFirst _ t).mp hc)
      simp [ht, htd]

theorem inv_emptyIndex : TermStatsInv (emptyIndex : BM25State K) :=
  ⟨by simp [keysA, emptyIndex], by simp [keysA, emptyIndex],
   fun t => by simp [emptyIndex, dfCountDocs]⟩

theorem inv_foldl_add (tools : List CatalogTool) :
    ∀ (s : BM25State K), TermStatsInv s →
      TermStatsInv (tools.foldl addToolInternal s) := by
  induction tools with
  | nil => intro s hs; exact hs
  | cons t ts ih => intro s hs; exact ih _ (inv_addToolInternal _ _ hs)

theorem inv_applyOp (st : BM25State K) (op : IndexOp) (h : TermStatsInv st) :
    TermStatsInv (applyOp st op) := by
  cases op with
  | index tools =>
    exact inv_recalcAvg _ (inv_foldl_add tools emptyIndex inv_emptyIndex)
  | indexAsync tools cs =>
    show TermStatsInv ((addToolsAsync emptyIndex tools cs).1)
    rw [addToolsAsync_fst]
    exact inv_recalcAvg _ (inv_foldl_add tools emptyIndex inv_emptyIndex)
  | add tool => exact inv_recalcAvg _ (inv_addToolInternal st tool h)
  | addBatch tools => exact inv_recalcAvg _ (inv_foldl_add tools st h)
  | addAsync tools cs =>
    show TermStatsInv ((addToolsAsync st tools cs).1)
    rw [addToolsAsync_fst]
    exact inv_recalcAvg _ (inv_foldl_add tools st h)
  | remove idStr => exact inv_removeTool st idStr h

/-- **C5**: after any sequence of public index operations starting from a
fresh index, every stored term count equals the number of currently indexed
documents whose token set contains the term, no entry with a zero count
exists, and removing an indexed document decrements each of its (unique)
terms' counts by exactly one, deleting the entry when the count reaches
zero. -/
theorem term_stats_invariant (ops : List IndexOp) :
    TermStatsInv (applyOps (emptyIndex (K := K)) ops) ∧
    (∀ t n, lookupA (applyOps (emptyIndex (K := K)) ops).docFreqs t = some n →
      n = dfCountDocs (applyOps (emptyIndex (K := K)) ops).documents t ∧ 1 ≤ n) ∧
    (∀ idStr doc t,
      lookupA (applyOps (emptyIndex (K := K)) ops).documents idStr = some doc →
      t ∈ doc.tokens →
      lookupA ((removeTool (applyOps (emptyIndex (K := K)) ops) idStr).1).docFreqs t =
        (if dfCountDocs (applyOps (emptyIndex (K := K)) ops).documents t = 1 then none
         else some (dfCountDocs (applyOps (emptyIndex (K := K)) ops).documents t - 1))) := by
  have hinv : TermStatsInv (applyOps (emptyIndex (K := K)) ops) := by
    have : ∀ (s : BM25State K), TermStatsInv s → TermStatsInv (applyOps s ops) := by
      unfold applyOps
      induction ops with
      | nil => intro s hs; exact hs
      | cons op rest ih => intro s hs; exact ih _ (inv_applyOp s op hs)
    exact this emptyIndex inv_emptyIndex
  obtain ⟨hnd, hfk, hchar⟩ := hinv
  refine ⟨⟨hnd, hfk, hchar⟩, ?_, ?_⟩
  · intro t n hlk
    have := hchar t
    rw [hlk] at this
    by_cases h0 : dfCountDocs (applyOps (emptyIndex (K := K)) ops).documents t = 0
    · rw [if_pos h0] at this; simp at this
    · rw [if_neg h0] at this
      have hn : n = dfCountDocs (applyOps (emptyIndex (K := K)) ops).documents t :=
        Option.some.inj this
      exact ⟨hn, by omega⟩
  · intro idStr doc t hl ht
    have hdecr := foldl_decr_char (dedupFirst doc.tokens) (nodup_dedupFirst _)
      (applyOps (emptyIndex (K := K)) ops).docFreqs
      (fun t => dfCountDocs (applyOps (emptyIndex (K := K)) ops).documents t) hfk hchar
      (fun t htm => dfCountDocs_pos _ idStr doc t hl ((mem_dedupFirst _ t).mp htm))
    have hrw : ((removeTool (applyOps (emptyIndex (K := K)) ops) idStr).1).docFreqs =
        (dedupFirst doc.tokens).foldl decrFreq
          (applyOps (emptyIndex (K := K)) ops).docFreqs := by
      unfold removeTool
      rw [hl]
      exact recalcAvg_docFreqs _
    rw [hrw, hdecr.1 t]
    have htd : t ∈ dedupFirst doc.tokens := (mem_dedupFirst _ t).mpr ht
    have hpos1 : 1 ≤ dfCountDocs (applyOps (emptyIndex (K := K)) ops).documents t :=
      dfCountDocs_pos _ idStr doc t hl ht
    rw [if_pos htd]
    by_cases h1 : dfCountDocs (applyOps (emptyIndex (K := K)) ops).documents t = 1
    · simp [h1]
    · have hne2 : ¬ (dfCountDocs (applyOps (emptyIndex (K := K)) ops).documents t - 1 = 0) := by
        omega
      rw [if_neg h1, if_neg hne2]

/-- Closed instance of C5: indexing one tool and removing it deletes its
only term's entry (count would reach zero). -/
theorem term_stats_invariant_witness :
    lookupA ((removeTool
        (applyOps (emptyIndex (K := ℚ)) [IndexOp.add (simpleTool "a")]) "a").1).docFreqs
      "alpha" =
      (if dfCountDocs
          (applyOps (emptyIndex (K := ℚ)) [IndexOp.add (simpleTool "a")]).documents
          "alpha" = 1 then none
       else some (dfCountDocs
          (applyOps (emptyIndex (K := ℚ)) [IndexOp.add (simpleTool "a")]).documents
          "alpha" - 1)) :=
  (term_stats_invariant [IndexOp.add (simpleTool "a")]).2.2 "a"
    ⟨["alpha"], simpleTool "a"⟩ "alpha" (by decide) (by decide)

/-! ## BM25 scoring: claim C1 -/

theorem foldl_add_sum {α : Type} (f : α → K) :
    ∀ (l : List α) (a : K), l.foldl (fun s x => s + f x) a = a + (l.map f).sum := by
  intro l
  induction l with
  | nil => intro a; simp
  | cons x xs ih =>
    intro a
    rw [List.foldl_cons, ih, List.map_cons, List.sum_cons]
    ring

/-- Every entry of the scores map carries a strictly positive score and a
key drawn from the document map. -/
theorem scoresList_mem (lg : K → K) (st : BM25State K) (qt : List String) :
    ∀ p ∈ scoresList lg st qt, 0 < p.2 ∧ p.1 ∈ keysA st.documents := by
  suffices h : ∀ (l : AList DocRec) (acc : AList K),
      (∀ q ∈ l, q.1 ∈ keysA st.documents) →
      (∀ p ∈ acc, 0 < p.2 ∧ p.1 ∈ keysA st.documents) →
      ∀ p ∈ l.foldl (fun acc p =>
          let s := docScore lg st qt p.1 p.2.tokens
          if 0 < s then setA acc p.1 s else acc) acc,
        0 < p.2 ∧ p.1 ∈ keysA st.documents by
    intro p hp
    exact h st.documents [] (fun q hq => List.mem_map.mpr ⟨q, hq, rfl⟩) (by simp) p hp
  intro l
  induction l with
  | nil => intro acc _ hacc p hp; exact hacc p hp
  | cons q l ih =>
    intro acc hl hacc p hp
    rw [List.foldl_cons] at hp
    refine ih _ (fun r hr => hl r (List.mem_cons_of_mem _ hr)) ?_ p hp
    intro r hr
    dsimp only at hr
    by_cases hs : 0 < docScore lg st qt q.1 q.2.tokens
    · rw [if_pos hs] at hr
      rcases mem_setA acc q.1 _ r hr with h' | h'
      · subst h'
        exact ⟨hs, hl q (List.mem_cons_self q l)⟩
      · exact hacc r h'
    · rw [if_neg hs] at hr
      exact hacc r hr

/-- The per-token BM25 contribution equals the specified closed formula. -/
theorem tokenScore_eq_spec (st : BM25State ℝ) (docTokens : List String)
    (docLength : Nat) (token : String) :
    tokenScore Real.log st docTokens docLength token =
      (if (lookupA st.docFreqs token).getD 0 = 0 then 0
       else
        Real.log (((st.totalDocs : ℝ) - ((lookupA st.docFreqs token).getD 0 : ℝ) + 0.5) /
            (((lookupA st.docFreqs token).getD 0 : ℝ) + 0.5) + 1) *
          ((tfOf docTokens token : ℝ) * (1.2 + 1)) /
          ((tfOf docTokens token : ℝ) + 1.2 * (1 - 0.75 + 0.75 *
            ((docLength : ℝ) / st.avgDocLength)))) := by
  unfold tokenScore idfOf bm25K1 bm25B
  by_cases hdf : (lookupA st.docFreqs token).getD 0 = 0
  · rw [if_pos hdf, if_pos hdf]
  · rw [if_neg hdf, if_neg hdf]
    rw [mul_div_assoc]
    norm_num

/-- **C1**: with the concrete number type ℝ and logarithm `Math.log`, the
score `search` accumulates for each indexed document is the sum over query
tokens of `idf * (tf * (k1+1)) / (tf + k1 * (1 - b + b * docLength/avgDocLength))`
with `k1 = 1.2`, `b = 0.75`, `idf = ln((totalDocs - df + 0.5)/(df + 0.5) + 1)`;
a token with `df = 0` contributes nothing, and every returned result carries
a strictly positive score. -/
theorem bm25_score_formula (st : BM25State ℝ) (query : String) (limit : Nat)
    (_hq : tokenize query ≠ []) (_hd : 0 < st.totalDocs) :
    (∀ idStr doc, (idStr, doc) ∈ st.documents →
      docScore Real.log st (tokenize query) idStr doc.tokens =
        ((tokenize query).map fun token =>
          if (lookupA st.docFreqs token).getD 0 = 0 then 0
          else
            Real.log (((st.totalDocs : ℝ) - ((lookupA st.docFreqs token).getD 0 : ℝ) + 0.5) /
                (((lookupA st.docFreqs token).getD 0 : ℝ) + 0.5) + 1) *
              ((tfOf doc.tokens token : ℝ) * (1.2 + 1)) /
              ((tfOf doc.tokens token : ℝ) + 1.2 * (1 - 0.75 + 0.75 *
                (((lookupA st.docLengths idStr).getD 0 : ℝ) / st.avgDocLength)))).sum) ∧
    (∀ r ∈ search Real.log st query limit, 0 < r.score) := by
  constructor
  · intro idStr doc _
    unfold docScore
    rw [foldl_add_sum (tokenScore Real.log st doc.tokens
      ((lookupA st.docLengths idStr).getD 0)) (tokenize query) 0, zero_add]
    congr 1
    apply List.map_congr_left
    intro token _
    exact tokenScore_eq_spec st doc.tokens ((lookupA st.docLengths idStr).getD 0) token
  · intro r hr
    unfold search at hr
    dsimp only at hr
    split at hr
    · simp at hr
    · simp only [List.mem_map] at hr
      obtain ⟨p, hp, rfl⟩ := hr
      have hp' := List.mem_of_mem_take hp
      have hp'' := (mem_sortCmp resLe p _).mp hp'
      have hpos := (scoresList_mem Real.log st (tokenize query) p hp'').1
      cases hlk : lookupA st.documents p.1 with
      | none => simpa [hlk, toSearchResult] using hpos
      | some doc => simpa [hlk, toSearchResult] using hpos

/-- Closed instance of C1 at a concrete one-document index and query. -/
theorem bm25_score_formula_witness :
    docScore Real.log optState (tokenize "alpha") "s_t"
        (⟨["alpha"], optTool⟩ : DocRec).tokens =
      ((tokenize "alpha").map fun token =>
        if (lookupA optState.docFreqs token).getD 0 = 0 then 0
        else
          Real.log (((optState.totalDocs : ℝ) -
              ((lookupA optState.docFreqs token).getD 0 : ℝ) + 0.5) /
              (((lookupA optState.docFreqs token).getD 0 : ℝ) + 0.5) + 1) *
            ((tfOf (⟨["alpha"], optTool⟩ : DocRec).tokens token : ℝ) * (1.2 + 1)) /
            ((tfOf (⟨["alpha"], optTool⟩ : DocRec).tokens token : ℝ) + 1.2 *
              (1 - 0.75 + 0.75 *
                (((lookupA optState.docLengths "s_t").getD 0 : ℝ) /
                  optState.avgDocLength)))).sum :=
  (bm25_score_formula optState "alpha" 5 (by decide) (by decide)).1 "s_t"
    ⟨["alpha"], optTool⟩ (by decide)

/-! ## Result ordering, truncation and the limit default: claim C2 -/

/-- The search comparator is total. -/
theorem resLe_total (a b : String × K) : resLe a b = true ∨ resLe b a = true := by
  unfold resLe
  by_cases h : |a.2 - b.2| < 1 / 10000
  · have h' : |b.2 - a.2| < 1 / 10000 := by rwa [abs_sub_comm]
    rw [if_pos h, if_pos h']
    rcases le_total a.1 b.1 with hle | hle
    · left; simpa using hle
    · right; simpa using hle
  · have h' : ¬ |b.2 - a.2| < 1 / 10000 := by rwa [abs_sub_comm]
    rw [if_neg h, if_neg h']
    rcases lt_trichotomy a.2 b.2 with hlt | heq | hlt
    · right; simpa using hlt
    · exfalso
      apply h
      rw [heq]
      simp
    · left; simpa using hlt

/-- Adjacent sortedness transfers through a map when the relation transfers
on members. -/
theorem chain_map_restricted {α β : Type} (R : α → α → Prop) (S : β → β → Prop)
    (f : α → β) : ∀ (l : List α), l.Chain' R →
      (∀ a ∈ l, ∀ b ∈ l, R a b → S (f a) (f b)) → (l.map f).Chain' S := by
  intro l
  induction l with
  | nil => simp
  | cons x xs ih =>
    intro hch hmem
    cases xs with
    | nil => simp
    | cons y ys =>
      rw [List.map_cons, List.map_cons, List.chain'_cons]
      rw [List.chain'_cons] at hch
      refine ⟨hmem x (List.mem_cons_self _ _) y
        (List.mem_cons_of_mem _ (List.mem_cons_self _ _)) hch.1, ?_⟩
      rw [← List.map_cons]
      exact ih hch.2 fun a ha b hb hR =>
        hmem a (List.mem_cons_of_mem _ ha) b (List.mem_cons_of_mem _ hb) hR

/-- **C2 (amended)**: the result sequence is sorted by the specified
comparator — descending score with sub-`0.0001` differences tied and broken
by ascending `idString` (adjacent results always satisfy it); the sequence
is the `limit`-prefix of the ordering, so increasing the limit only extends
it; and the component applies the internal default `limit = 5` when the
caller omits it (the source declares `search(query, limit = 5)`); repeated
calls of this pure function trivially agree. -/
theorem search_ordering (lg : K → K) (st : BM25State K) (q : String) (lim lim' : Nat)
    (hww : ∀ idStr doc, lookupA st.documents idStr = some doc →
      doc.tool.idString = idStr) :
    (search lg st q lim).Chain' resultRel ∧
    (lim ≤ lim' → search lg st q lim = (search lg st q lim').take lim) ∧
    searchDefault lg st q = search lg st q 5 := by
  refine ⟨?_, ?_, rfl⟩
  · unfold search
    dsimp only
    split
    · simp
    · have hchain := chain_take _ _ lim
        (chain_sortCmp resLe resLe_total (scoresList lg st (tokenize q)))
      refine chain_map_restricted _ _ _ _ hchain ?_
      intro a ha b hb hR
      have ha' := (mem_sortCmp resLe a _).mp (List.mem_of_mem_take ha)
      have hb' := (mem_sortCmp resLe b _).mp (List.mem_of_mem_take hb)
      have hak := (scoresList_mem lg st (tokenize q) a ha').2
      have hbk := (scoresList_mem lg st (tokenize q) b hb').2
      obtain ⟨docA, hdA⟩ : ∃ doc, lookupA st.documents a.1 = some doc := by
        rcases hlk : lookupA st.documents a.1 with _ | doc
        · exact absurd ((lookupA_eq_none_iff _ _).mp hlk) (by simpa using hak)
        · exact ⟨doc, rfl⟩
      obtain ⟨docB, hdB⟩ : ∃ doc, lookupA st.documents b.1 = some doc := by
        rcases hlk : lookupA st.documents b.1 with _ | doc
        · exact absurd ((lookupA_eq_none_iff _ _).mp hlk) (by simpa using hbk)
        · exact ⟨doc, rfl⟩
      show resultRel
        (match lookupA st.documents a.1 with
         | some doc => toSearchResult doc.tool a.2
         | none => toSearchResult ⟨⟨"", ""⟩, "", "", "", []⟩ a.2)
        (match lookupA st.documents b.1 with
         | some doc => toSearchResult doc.tool b.2
         | none => toSearchResult ⟨⟨"", ""⟩, "", "", "", []⟩ b.2)
      rw [hdA, hdB]
      unfold resultRel toSearchResult
      dsimp only
      rw [hww a.1 docA hdA, hww b.1 docB hdB]
      unfold resLe at hR
      by_cases hd : |a.2 - b.2| < 1 / 10000
      · rw [if_pos hd] at hR ⊢
        exact of_decide_eq_true hR
      · rw [if_neg hd] at hR ⊢
        exact of_decide_eq_true hR
  · intro hlim
    unfold search
    dsimp only
    split
    · simp
    · rw [← List.map_take, List.take_take, Nat.min_eq_left hlim]

/-- Closed instance of the amended C2 on a two-document index. -/
theorem search_ordering_witness :
    ((2 : Nat) ≤ 3) ∧
    (search (fun x => x) stW "alpha" 2).Chain' resultRel ∧
    search (fun x => x) stW "alpha" 2 = (search (fun x => x) stW "alpha" 3).take 2 ∧
    searchDefault (fun x => x) stW "alpha" = search (fun x => x) stW "alpha" 5 := by
  have h := search_ordering (fun x => x) stW "alpha" 2 3
    (by
      intro idStr doc hl
      by_cases ht : "a" = idStr
      · subst ht
        simp [stW, lookupA] at hl
        rw [← hl]
        rfl
      · simp [stW, lookupA, ht] at hl)
  exact ⟨by norm_num, h.1, h.2.1 (by norm_num), h.2.2⟩

/-- Counterexample to C2 as stated: the component *does* apply an internal
default — `search(query, limit = 5)` — so with the limit omitted a
six-document index in which every document matches returns only five
results, while an explicit limit of 6 returns all six. -/
theorem search_default_limit_cex :
    (scoresList Real.log st6 (tokenize "alpha")).length = 6 ∧
    (searchDefault Real.log st6 "alpha").length = 5 ∧
    (search Real.log st6 "alpha" 6).length = 6 := by
  have hs : ∀ idStr, lookupA st6.docLengths idStr = some 1 →
      docScore Real.log st6 ["alpha"] idStr ["alpha"] = Real.log (14 / 13) := by
    intro idStr hl
    simp only [docScore, List.foldl_cons, List.foldl_nil, zero_add, tokenScore, idfOf,
      tfOf, bm25K1, bm25B, hl]
    norm_num [st6, lookupA]
  have hpos : (0 : ℝ) < Real.log (14 / 13) := Real.log_pos (by norm_num)
  have hsl : scoresList Real.log st6 ["alpha"] =
      [("t1", Real.log (14 / 13)), ("t2", Real.log (14 / 13)),
       ("t3", Real.log (14 / 13)), ("t4", Real.log (14 / 13)),
       ("t5", Real.log (14 / 13)), ("t6", Real.log (14 / 13))] := by
    have h1 := hs "t1" rfl
    have h2 := hs "t2" rfl
    have h3 := hs "t3" rfl
    have h4 := hs "t4" rfl
    have h5 := hs "t5" rfl
    have h6 := hs "t6" rfl
    simp only [scoresList, show st6.documents =
      [("t1", ⟨["alpha"], simpleTool "t1"⟩), ("t2", ⟨["alpha"], simpleTool "t2"⟩),
       ("t3", ⟨["alpha"], simpleTool "t3"⟩), ("t4", ⟨["alpha"], simpleTool "t4"⟩),
       ("t5", ⟨["alpha"], simpleTool "t5"⟩),
       ("t6", ⟨["alpha"], simpleTool "t6"⟩)] from rfl,
      List.foldl_cons, List.foldl_nil]
    rw [h1, h2, h3, h4, h5, h6]
    simp only [if_pos hpos]
    simp [setA]
  have htok : tokenize "alpha" = ["alpha"] := by decide
  have hcond : ((["alpha"] : List String).isEmpty || decide (st6.totalDocs = 0)) = false := by
    decide
  refine ⟨by rw [htok, hsl]; rfl, ?_, ?_⟩
  · show (search Real.log st6 "alpha" 5).length = 5
    simp only [search, htok, hcond, Bool.false_eq_true, if_false, hsl]
    rw [List.length_map, List.length_take, length_sortCmp]
    rfl
  · simp only [search, htok, hcond, Bool.false_eq_true, if_false, hsl]
    rw [List.length_map, List.length_take, length_sortCmp]
    rfl

end Toolbox
